import Mathlib

/-!
Shallow embedding of the state-space search engine in `graph.py` and the
domain classes of `state_classes.py`.

Conventions of the embedding:
* a Python `State` subclass becomes a `StateImpl S` record over a carrier
  type `S` with decidable equality (value equality plus a stable hash);
* a `Node` is a thin wrapper whose equality and hash delegate to its state,
  so the embedding works with states directly;
* unbounded recursion / while-loops are driven by an explicit fuel
  parameter: `none` means the computation did not finish within the given
  fuel (the Python code would still be running, or crash), `some r` is the
  result the Python code returns (or the exception it raises);
* `attractive_rate` returns `Option ℚ`: `none` models a domain that omits
  the method, whose invocation raises `NotImplementedError`.
-/

namespace SearchAI

/-- The capability contract of `State` in `graph.py`: successor generation
(`next_states`), goal test (`is_end_state`), and the heuristic score
(`attractive_rate`, where `none` models a subclass that does not implement
it, so that calling it raises `NotImplementedError`). -/
structure StateImpl (S : Type) where
  next_states : S → List S
  is_end_state : S → Bool
  attractive_rate : S → Option ℚ

/-- Observable outcome of one `solve_end_state_*` call: a returned path of
states, the `ValueError("No end-state found from base-state.")` raised on
exhaustion, or a `NotImplementedError` escaping from `attractive_rate`. -/
inductive SearchResult (S : Type) where
  | found : List S → SearchResult S
  | noSolution : SearchResult S
  | notImpl : SearchResult S
deriving DecidableEq

variable {S : Type} [DecidableEq S]

/-- Association-list lookup, modelling `parent_dict[c]` / `c in parent_dict`
on the dictionary keyed by node (state) equality. -/
def lookupS (parent : List (S × S)) (c : S) : Option S :=
  match parent with
  | [] => none
  | (k, v) :: rest => if c = k then some v else lookupS rest c

/-- `Graph.deconstruct_path_from_parent_dict`: walk the parent pointers from
`c` back to `start`, returning the path from `start` to `c` (the Python code
builds the reversed list and reverses it at the end).  Fuel bounds the walk;
a missing key (Python `KeyError`) or exhausted fuel yields `none`. -/
def walkBack (start : S) (parent : List (S × S)) : Nat → S → Option (List S)
  | 0, _ => none
  | fuel + 1, c =>
    if c = start then some [c]
    else
      match lookupS parent c with
      | none => none
      | some w => (walkBack start parent fuel w).map (fun pw => pw ++ [c])

/-- The loop state of `solve_end_state_BFS`: the FIFO queue of
(node, depth) pairs and the child-to-parent dictionary. -/
structure BfsState (S : Type) where
  queue : List (S × Nat)
  parent : List (S × S)
deriving DecidableEq

/-- The `for node in curr_node_arcs` body of `solve_end_state_BFS`: skip
already-discovered successors, record a parent pointer for the fresh ones
and produce the queue entries appended at depth `d + 1`. -/
def bfsExpand (parent : List (S × S)) (curr : S) (d : Nat) :
    List S → List (S × S) × List (S × Nat)
  | [] => (parent, [])
  | node :: rest =>
    if (lookupS parent node).isSome then bfsExpand parent curr d rest
    else
      let res := bfsExpand ((node, curr) :: parent) curr d rest
      (res.1, (node, d + 1) :: res.2)

/-- Outcome of one iteration of the BFS while-loop: either the call returns
(`halt (some _)`), diverges inside path reconstruction (`halt none`), or
continues with an updated loop state. -/
inductive BfsOutcome (S : Type) where
  | halt : Option (SearchResult S) → BfsOutcome S
  | next : BfsState S → BfsOutcome S
deriving DecidableEq

/-- One iteration of the `while fifo_queue` loop of `solve_end_state_BFS`:
pop the earliest entry, return the reconstructed path if it is a goal,
otherwise expand it and append the fresh successors. -/
def bfsStep (impl : StateImpl S) (start : S) (st : BfsState S) : BfsOutcome S :=
  match st.queue with
  | [] => .halt (some .noSolution)
  | (curr, d) :: rest =>
    if impl.is_end_state curr then
      match walkBack start st.parent (st.parent.length + 1) curr with
      | none => .halt none
      | some pw => .halt (some (.found pw))
    else
      let ex := bfsExpand st.parent curr d (impl.next_states curr)
      .next ⟨rest ++ ex.2, ex.1⟩

/-- Fuel-bounded iteration of `bfsStep`. -/
def bfsLoop (impl : StateImpl S) (start : S) : Nat → BfsState S → Option (SearchResult S)
  | 0, _ => none
  | fuel + 1, st =>
    match bfsStep impl start st with
    | .halt r => r
    | .next st' => bfsLoop impl start fuel st'

/-- `Graph.solve_end_state_BFS`: the queue is seeded with the start node at
depth 0 and the parent dictionary starts empty. -/
def solve_end_state_BFS (impl : StateImpl S) (start : S) (fuel : Nat) :
    Option (SearchResult S) :=
  bfsLoop impl start fuel ⟨[(start, 0)], []⟩

/-- The `for node in node_arcs` loop of `recursive_solve_end_state_DFS`,
parameterised by the recursive call `rec`.  The visited set is monotonic:
a failed branch keeps the nodes it marked. -/
def dfs_arcs (rec : List S → List S → Option (List S × Option (List S))) :
    List S → List S → List S → Option (List S × Option (List S))
  | [], _, solved => some (solved, none)
  | node :: rest, path, solved =>
    if node ∈ solved then dfs_arcs rec rest path solved
    else
      match rec (path ++ [node]) (node :: solved) with
      | none => none
      | some (solved', some p) => some (solved', some p)
      | some (solved', none) => dfs_arcs rec rest path solved'

/-- `Graph.recursive_solve_end_state_DFS`.  The result pairs the updated
visited set with the found path (`none` = the Python helper returns
`None`). -/
def recursive_solve_end_state_DFS (impl : StateImpl S) :
    Nat → List S → List S → Option (List S × Option (List S))
  | 0, _, _ => none
  | fuel + 1, path, solved =>
    match path.getLast? with
    | none => none
    | some curr =>
      if impl.is_end_state curr then some (solved, some path)
      else dfs_arcs (recursive_solve_end_state_DFS impl fuel)
        (impl.next_states curr) path solved

/-- `Graph.dfs_wrapper`: a falsy helper result (`None` or an empty path)
becomes the `ValueError`, otherwise the path of states is returned. -/
def dfs_wrapper : Option (List S × Option (List S)) → Option (SearchResult S)
  | none => none
  | some (_, none) => some .noSolution
  | some (_, some []) => some .noSolution
  | some (_, some (s :: p)) => some (.found (s :: p))

/-- `Graph.solve_end_state_DFS`: visited set seeded with the start node. -/
def solve_end_state_DFS (impl : StateImpl S) (start : S) (fuel : Nat) :
    Option (SearchResult S) :=
  dfs_wrapper (recursive_solve_end_state_DFS impl fuel [start] [start])

/-- `Graph.solve_end_state_RDFS`: its body is identical to
`solve_end_state_DFS` — it calls `recursive_solve_end_state_DFS`, not the
shuffled helper `recursive_solve_end_state_RDFS`. -/
def solve_end_state_RDFS (impl : StateImpl S) (start : S) (fuel : Nat) :
    Option (SearchResult S) :=
  dfs_wrapper (recursive_solve_end_state_DFS impl fuel [start] [start])

/-- `Graph.recursive_solve_end_state_RDFS` (dead code: no entry point calls
it).  `shuffled` models the `random.shuffle` of the arc list; note the
recursive call inside it goes to `recursive_solve_end_state_DFS` (line 198
of `graph.py`), so only the first level is shuffled. -/
def recursive_solve_end_state_RDFS (impl : StateImpl S)
    (shuffled : List S → List S) :
    Nat → List S → List S → Option (List S × Option (List S))
  | 0, _, _ => none
  | fuel + 1, path, solved =>
    match path.getLast? with
    | none => none
    | some curr =>
      if impl.is_end_state curr then some (solved, some path)
      else dfs_arcs (recursive_solve_end_state_DFS impl fuel)
        (shuffled (impl.next_states curr)) path solved

/-- The arc loop of `recursive_solve_end_state_DFSL`: unlike the DFS one,
a failed branch removes the node it marked (`solved_state_nodes.remove`),
making the visited set path-scoped. -/
def dfsl_arcs (rec : List S → List S → Option (List S × Option (List S))) :
    List S → List S → List S → Option (List S × Option (List S))
  | [], _, solved => some (solved, none)
  | node :: rest, path, solved =>
    if node ∈ solved then dfsl_arcs rec rest path solved
    else
      match rec (path ++ [node]) (node :: solved) with
      | none => none
      | some (solved', some p) => some (solved', some p)
      | some (solved', none) => dfsl_arcs rec rest path (solved'.erase node)

/-- `Graph.recursive_solve_end_state_DFSL`: returns `None` as soon as the
remaining depth becomes negative. -/
def recursive_solve_end_state_DFSL (impl : StateImpl S) :
    Nat → Int → List S → List S → Option (List S × Option (List S))
  | 0, _, _, _ => none
  | fuel + 1, depth, path, solved =>
    if depth < 0 then some (solved, none)
    else
      match path.getLast? with
      | none => none
      | some curr =>
        if impl.is_end_state curr then some (solved, some path)
        else dfsl_arcs (recursive_solve_end_state_DFSL impl fuel (depth - 1))
          (impl.next_states curr) path solved

/-- `Graph.solve_end_state_DFSL`. -/
def solve_end_state_DFSL (impl : StateImpl S) (start : S) (depth : Int)
    (fuel : Nat) : Option (SearchResult S) :=
  dfs_wrapper (recursive_solve_end_state_DFSL impl fuel depth [start] [start])

/-- `Graph.solve_end_state_RDFSL`: its body is identical to
`solve_end_state_DFSL` — it calls `recursive_solve_end_state_DFSL`, not the
shuffled helper. -/
def solve_end_state_RDFSL (impl : StateImpl S) (start : S) (depth : Int)
    (fuel : Nat) : Option (SearchResult S) :=
  dfs_wrapper (recursive_solve_end_state_DFSL impl fuel depth [start] [start])

/-- `Graph.recursive_solve_end_state_RDFSL` (dead code: no entry point calls
it); its recursive call goes to `recursive_solve_end_state_DFSL` (line 266
of `graph.py`). -/
def recursive_solve_end_state_RDFSL (impl : StateImpl S)
    (shuffled : List S → List S) :
    Nat → Int → List S → List S → Option (List S × Option (List S))
  | 0, _, _, _ => none
  | fuel + 1, depth, path, solved =>
    if depth < 0 then some (solved, none)
    else
      match path.getLast? with
      | none => none
      | some curr =>
        if impl.is_end_state curr then some (solved, some path)
        else dfsl_arcs (recursive_solve_end_state_DFSL impl fuel (depth - 1))
          (shuffled (impl.next_states curr)) path solved

/-- The `while True` loop of `solve_end_state_IDFSL`: try DFSL at depth `i`,
treat its `ValueError` as a signal to move to depth `i + 1`.  The outer fuel
bounds the number of depths tried (the Python loop is unbounded). -/
def idfsl_loop (impl : StateImpl S) (start : S) (innerFuel : Nat) :
    Nat → Int → Option (SearchResult S)
  | 0, _ => none
  | f + 1, i =>
    match solve_end_state_DFSL impl start i innerFuel with
    | none => none
    | some (.found p) => some (.found p)
    | some .noSolution => idfsl_loop impl start innerFuel f (i + 1)
    | some .notImpl => some .notImpl

/-- `Graph.solve_end_state_IDFSL`. -/
def solve_end_state_IDFSL (impl : StateImpl S) (start : S)
    (fuel innerFuel : Nat) : Option (SearchResult S) :=
  idfsl_loop impl start innerFuel fuel 0

/-- The loop of `solve_end_state_RIDFSL`, calling the RDFSL entry point. -/
def ridfsl_loop (impl : StateImpl S) (start : S) (innerFuel : Nat) :
    Nat → Int → Option (SearchResult S)
  | 0, _ => none
  | f + 1, i =>
    match solve_end_state_RDFSL impl start i innerFuel with
    | none => none
    | some (.found p) => some (.found p)
    | some .noSolution => ridfsl_loop impl start innerFuel f (i + 1)
    | some .notImpl => some .notImpl

/-- `Graph.solve_end_state_RIDFSL`. -/
def solve_end_state_RIDFSL (impl : StateImpl S) (start : S)
    (fuel innerFuel : Nat) : Option (SearchResult S) :=
  ridfsl_loop impl start innerFuel fuel 0

/-- Result of `recursive_solve_end_state_PDFS`: `raised` models the
`NotImplementedError` escaping from `attractive_rate` inside `sorted`. -/
inductive PdfsRes (S : Type) where
  | raised : PdfsRes S
  | res : List S → Option (List S) → PdfsRes S
deriving DecidableEq

/-- Insert one keyed arc into an already descending-sorted keyed list,
placing it before the first entry whose key is not larger — the ties it
meets keep their earlier position, matching the stability of Python
`sorted(..., reverse=True)`. -/
def insertDesc (x : S × ℚ) : List (S × ℚ) → List (S × ℚ)
  | [] => [x]
  | y :: ys => if y.2 ≤ x.2 then x :: y :: ys else y :: insertDesc x ys

/-- Stable descending insertion sort on keyed arcs, the model of Python
`sorted(nodes, key=..., reverse=True)`. -/
def stableSortDesc : List (S × ℚ) → List (S × ℚ)
  | [] => []
  | x :: rest => insertDesc x (stableSortDesc rest)

/-- Decorate each arc with its `attractive_rate()`; Python `sorted` calls
the key function on every element, so a single missing implementation
raises before any comparison. -/
def keyArcs (rate : S → Option ℚ) : List S → Option (List (S × ℚ))
  | [] => some []
  | s :: rest =>
    match rate s with
    | none => none
    | some r => (keyArcs rate rest).map (fun kl => (s, r) :: kl)

/-- The `sorted(curr_node.get_arcs(), key=..., reverse=True)` call of
`recursive_solve_end_state_PDFS`. -/
def sortArcs (rate : S → Option ℚ) (arcs : List S) : Option (List S) :=
  (keyArcs rate arcs).map (fun kl => (stableSortDesc kl).map Prod.fst)

/-- The `for node in sorted_nodes` loop of `recursive_solve_end_state_PDFS`
(monotonic visited set, like DFS). -/
def pdfs_arcs (rec : List S → List S → Option (PdfsRes S)) :
    List S → List S → List S → Option (PdfsRes S)
  | [], _, solved => some (.res solved none)
  | node :: rest, path, solved =>
    if node ∈ solved then pdfs_arcs rec rest path solved
    else
      match rec (path ++ [node]) (node :: solved) with
      | none => none
      | some .raised => some .raised
      | some (.res solved' (some p)) => some (.res solved' (some p))
      | some (.res solved' none) => pdfs_arcs rec rest path solved'

/-- `Graph.recursive_solve_end_state_PDFS`. -/
def recursive_solve_end_state_PDFS (impl : StateImpl S) :
    Nat → List S → List S → Option (PdfsRes S)
  | 0, _, _ => none
  | fuel + 1, path, solved =>
    match path.getLast? with
    | none => none
    | some curr =>
      if impl.is_end_state curr then some (.res solved (some path))
      else
        match sortArcs impl.attractive_rate (impl.next_states curr) with
        | none => some .raised
        | some sortedArcs => pdfs_arcs (recursive_solve_end_state_PDFS impl fuel)
            sortedArcs path solved

/-- `dfs_wrapper` as it applies to the PDFS helper; the uncaught
`NotImplementedError` passes through it. -/
def pdfs_wrapper : Option (PdfsRes S) → Option (SearchResult S)
  | none => none
  | some .raised => some .notImpl
  | some (.res _ none) => some .noSolution
  | some (.res _ (some [])) => some .noSolution
  | some (.res _ (some (s :: p))) => some (.found (s :: p))

/-- `Graph.solve_end_state_PDFS`. -/
def solve_end_state_PDFS (impl : StateImpl S) (start : S) (fuel : Nat) :
    Option (SearchResult S) :=
  pdfs_wrapper (recursive_solve_end_state_PDFS impl fuel [start] [start])

/-- The `Strategy` enum of `graph.py`. -/
inductive Strategy where
  | BFS | DFS | RDFS | DFSL | RDFSL | IDFSL | RIDFSL | PDFS
deriving DecidableEq

/-- `Graph.solve_end_state`: dispatch on the strategy (`depth` is consumed
only by the depth-limited strategies, `innerFuel` only by the iterative
ones). -/
def solve_end_state (impl : StateImpl S) (start : S) (strategy : Strategy)
    (depth : Int) (fuel innerFuel : Nat) : Option (SearchResult S) :=
  match strategy with
  | .BFS => solve_end_state_BFS impl start fuel
  | .DFS => solve_end_state_DFS impl start fuel
  | .RDFS => solve_end_state_RDFS impl start fuel
  | .DFSL => solve_end_state_DFSL impl start depth fuel
  | .RDFSL => solve_end_state_RDFSL impl start depth fuel
  | .IDFSL => solve_end_state_IDFSL impl start fuel innerFuel
  | .RIDFSL => solve_end_state_RIDFSL impl start fuel innerFuel
  | .PDFS => solve_end_state_PDFS impl start fuel

/-- The `LightBulb` domain of `state_classes.py`: carrier `Bool` (`is_on`),
one successor toggling the bulb, goal = on; it does not implement
`attractive_rate`. -/
def LightBulb : StateImpl Bool :=
  ⟨fun b => [!b], fun b => b, fun _ => none⟩

/-- The `ModN` domain of `state_classes.py`: carrier (mod, inc, val); it
does not implement `attractive_rate`. -/
def ModN : StateImpl (ℤ × ℤ × ℤ) :=
  ⟨fun s => [(s.1, s.2.1, (s.2.2 + s.2.1) % s.1)], fun s => s.2.2 == 0,
    fun _ => none⟩

/-- A three-state test domain: `0 → 1`, `1 → 0` and `1 → 2`, goal `2`.
On it BFS rediscovers the start state `0` as a successor of `1`. -/
def threeLine : StateImpl (Fin 3) :=
  ⟨fun s => if s = 0 then [1] else if s = 1 then [0, 2] else [],
   fun s => s == 2, fun _ => some 0⟩

/-- A one-state test domain whose single state loops to itself and is never
a goal: the smallest finite unsolvable instance. -/
def selfLoop : StateImpl Bool :=
  ⟨fun b => [b], fun _ => false, fun _ => some 0⟩

/-- The self-loop domain without `attractive_rate`: finite (one reachable
state), unsolvable, and its heuristic raises `NotImplementedError`. -/
def selfLoopNoRate : StateImpl Bool :=
  ⟨fun b => [b], fun _ => false, fun _ => none⟩

/-- A rating function with a tie (`0` and `2` both rate 1, `1` rates 2),
used to exhibit the stable tie-breaking of the PDFS successor sort. -/
def tieRate : Fin 3 → Option ℚ :=
  fun s => if s = 1 then some 2 else some 1

/-- A test domain whose start state `0` has the successors `[0, 1, 2]`
rated by `tieRate` (so `0` and `2` tie below `1`), and no goal at all. -/
def tieImpl : StateImpl (Fin 3) :=
  ⟨fun s => if s = 0 then [0, 1, 2] else [], fun _ => false, tieRate⟩

/-- `l` is a sequence of states in which each element is a member of its
predecessor's `next_states()`. -/
def IsChain (impl : StateImpl S) (l : List S) : Prop :=
  List.Chain' (fun a b => b ∈ impl.next_states a) l

/-- The path-validity contract of the spec: the path starts at the start
state, ends in a goal state, and makes one legal transition per step. -/
def ValidSolution (impl : StateImpl S) (start : S) (p : List S) : Prop :=
  p.head? = some start ∧ IsChain impl p ∧
    ∃ g, p.getLast? = some g ∧ impl.is_end_state g = true

/-- `ReachN impl start k c`: some walk of exactly `k` transitions leads
from `start` to `c`. -/
def ReachN (impl : StateImpl S) (start : S) : Nat → S → Prop
  | 0, c => c = start
  | k + 1, c => ∃ b, ReachN impl start k b ∧ c ∈ impl.next_states b

/-- What a successful DFS-family helper call returns, relative to the
`path` and `solved` arguments it received: the found path extends `path`
by fresh states (none of them already visited), each extension step is a
legal transition, and the final state is a goal. -/
def FoundSpec (impl : StateImpl S) (path solved p : List S) : Prop :=
  ∃ ext, p = path ++ ext ∧ (∀ x ∈ ext, x ∉ solved) ∧
    (∀ curr, path.getLast? = some curr → IsChain impl (curr :: ext)) ∧
    ∃ g, p.getLast? = some g ∧ impl.is_end_state g = true

/-- Number of states of `univ` not yet in the visited set `solved`;
the termination measure of the DFS-family recursions on a finite closed
state space. -/
def freshCount (univ solved : List S) : Nat :=
  (univ.filter (fun u => decide (u ∉ solved))).length

/-- Number of states of `univ` not yet discovered by BFS (no parent
entry); together with the queue length, the termination measure of the
BFS loop. -/
def undiscCount (univ : List S) (parent : List (S × S)) : Nat :=
  (univ.filter (fun u => (lookupS parent u).isNone)).length

/-- The loop invariant of `solve_end_state_BFS` (for a start state that is
not itself a goal).  `queueEntry` records that every queued node has a
reconstructible parent-walk of length matching its recorded depth (except
for a re-enqueued start, whose walk is just `[start]` and whose successors
are all discovered); `minWalk` says recorded walks never exceed true
distances; `disc` says every state strictly closer than the front depth is
already discovered; `proc` says every discovered state no longer queued has
been expanded and is not a goal; `startFresh` pins down the only way the
start can sit in the queue while still undiscovered. -/
structure BfsInv (impl : StateImpl S) (start : S) (st : BfsState S) : Prop where
  notEndStart : impl.is_end_state start = false
  parentClosed : ∀ c w, (c, w) ∈ st.parent →
    (lookupS st.parent w).isSome ∨ w = start
  window : ∃ d0 q1 q2, st.queue = q1 ++ q2 ∧ (∀ e ∈ q1, e.2 = d0) ∧
    (∀ e ∈ q2, e.2 = d0 + 1)
  queueEntry : ∀ n dn, (n, dn) ∈ st.queue →
    ∃ pw, walkBack start st.parent (st.parent.length + 1) n = some pw ∧
      IsChain impl pw ∧ pw.head? = some start ∧ pw.getLast? = some n ∧
      (pw.length = dn + 1 ∨
        (n = start ∧ ∀ t ∈ impl.next_states start, (lookupS st.parent t).isSome))
  minWalk : ∀ c pw f, walkBack start st.parent f c = some pw →
    ∀ k, ReachN impl start k c → pw.length ≤ k + 1
  disc : ∀ c k, ReachN impl start k c → ∀ e, st.queue.head? = some e →
    k < e.2 → ((lookupS st.parent c).isSome ∨ c = start)
  proc : ∀ c, ((lookupS st.parent c).isSome ∨ c = start) →
    (∀ e ∈ st.queue, e.1 ≠ c) →
    (∀ t ∈ impl.next_states c, (lookupS st.parent t).isSome) ∧
      impl.is_end_state c = false
  startFresh : lookupS st.parent start = none →
    ∀ e ∈ st.queue, e.1 = start → st.queue = [(start, 0)]

/-! ### Basic lemmas about the DFS-family helpers -/

omit [DecidableEq S] in
theorem FoundSpec.anti {impl : StateImpl S} {path s₁ s₂ p : List S}
    (h : FoundSpec impl path s₂ p) (hsub : s₁ ⊆ s₂) :
    FoundSpec impl path s₁ p := by
  obtain ⟨ext, h1, h2, h3, h4⟩ := h
  exact ⟨ext, h1, fun x hx hmem => h2 x hx (hsub hmem), h3, h4⟩

theorem dfs_arcs_mono
    {rec : List S → List S → Option (List S × Option (List S))}
    (Hrec : ∀ ps ss s' r, rec ps ss = some (s', r) → ss ⊆ s') :
    ∀ {arcs path solved s' r}, dfs_arcs rec arcs path solved = some (s', r) →
      solved ⊆ s' := by
  intro arcs
  induction arcs with
  | nil =>
    intro path solved s' r h
    simp only [dfs_arcs, Option.some.injEq, Prod.mk.injEq] at h
    exact h.1 ▸ List.Subset.refl _
  | cons node rest ih =>
    intro path solved s' r h
    simp only [dfs_arcs] at h
    split at h
    · exact ih h
    · split at h
      · exact Option.noConfusion h
      · rename_i heq
        simp only [Option.some.injEq, Prod.mk.injEq] at h
        exact h.1 ▸ List.Subset.trans (List.subset_cons_self _ _) (Hrec _ _ _ _ heq)
      · rename_i heq
        exact List.Subset.trans (List.subset_cons_self _ _)
          (List.Subset.trans (Hrec _ _ _ _ heq) (ih h))

theorem dfs_rec_mono {impl : StateImpl S} :
    ∀ {fuel : Nat} {path solved s' : List S} {r},
      recursive_solve_end_state_DFS impl fuel path solved = some (s', r) →
      solved ⊆ s' := by
  intro fuel
  induction fuel with
  | zero => intro _ _ _ _ h; exact Option.noConfusion h
  | succ f ih =>
    intro path solved s' r h
    simp only [recursive_solve_end_state_DFS] at h
    split at h
    · exact Option.noConfusion h
    · split at h
      · simp only [Option.some.injEq, Prod.mk.injEq] at h
        exact h.1 ▸ List.Subset.refl _
      · exact dfs_arcs_mono (fun ps ss a b hh => ih hh) h

theorem dfsl_arcs_restore
    {rec : List S → List S → Option (List S × Option (List S))}
    (Hrec : ∀ ps ss s', rec ps ss = some (s', none) → s' = ss) :
    ∀ {arcs path solved s'}, dfsl_arcs rec arcs path solved = some (s', none) →
      s' = solved := by
  intro arcs
  induction arcs with
  | nil =>
    intro path solved s' h
    simp only [dfsl_arcs, Option.some.injEq, Prod.mk.injEq] at h
    exact h.1.symm
  | cons node rest ih =>
    intro path solved s' h
    simp only [dfsl_arcs] at h
    split at h
    · exact ih h
    · split at h
      · exact Option.noConfusion h
      · simp only [Option.some.injEq, Prod.mk.injEq] at h
        exact absurd h.2 (by simp)
      · rename_i heq
        have hrest := ih h
        rw [Hrec _ _ _ heq, List.erase_cons_head] at hrest
        exact hrest

theorem dfsl_rec_restore {impl : StateImpl S} :
    ∀ {fuel : Nat} {depth : Int} {path solved s' : List S},
      recursive_solve_end_state_DFSL impl fuel depth path solved = some (s', none) →
      s' = solved := by
  intro fuel
  induction fuel with
  | zero => intro _ _ _ _ h; exact Option.noConfusion h
  | succ f ih =>
    intro depth path solved s' h
    simp only [recursive_solve_end_state_DFSL] at h
    split at h
    · simp only [Option.some.injEq, Prod.mk.injEq] at h
      exact h.1.symm
    · split at h
      · exact Option.noConfusion h
      · split at h
        · simp only [Option.some.injEq, Prod.mk.injEq] at h
          exact absurd h.2 (by simp)
        · exact dfsl_arcs_restore (fun ps ss a hh => ih hh) h

theorem pdfs_arcs_mono
    {rec : List S → List S → Option (PdfsRes S)}
    (Hrec : ∀ ps ss s' r, rec ps ss = some (.res s' r) → ss ⊆ s') :
    ∀ {arcs path solved s' r}, pdfs_arcs rec arcs path solved = some (.res s' r) →
      solved ⊆ s' := by
  intro arcs
  induction arcs with
  | nil =>
    intro path solved s' r h
    simp only [pdfs_arcs, Option.some.injEq, PdfsRes.res.injEq] at h
    exact h.1 ▸ List.Subset.refl _
  | cons node rest ih =>
    intro path solved s' r h
    simp only [pdfs_arcs] at h
    split at h
    · exact ih h
    · split at h
      · exact Option.noConfusion h
      · simp at h
      · rename_i heq
        simp only [Option.some.injEq, PdfsRes.res.injEq] at h
        exact h.1 ▸ List.Subset.trans (List.subset_cons_self _ _) (Hrec _ _ _ _ heq)
      · rename_i heq
        exact List.Subset.trans (List.subset_cons_self _ _)
          (List.Subset.trans (Hrec _ _ _ _ heq) (ih h))

theorem pdfs_rec_mono {impl : StateImpl S} :
    ∀ {fuel : Nat} {path solved s' : List S} {r},
      recursive_solve_end_state_PDFS impl fuel path solved = some (.res s' r) →
      solved ⊆ s' := by
  intro fuel
  induction fuel with
  | zero => intro _ _ _ _ h; exact Option.noConfusion h
  | succ f ih =>
    intro path solved s' r h
    simp only [recursive_solve_end_state_PDFS] at h
    split at h
    · exact Option.noConfusion h
    · split at h
      · simp only [Option.some.injEq, PdfsRes.res.injEq] at h
        exact h.1 ▸ List.Subset.refl _
      · split at h
        · simp at h
        · exact pdfs_arcs_mono (fun ps ss a b hh => ih hh) h

/-! ### Found paths of the DFS-family helpers satisfy `FoundSpec` -/

theorem dfs_arcs_found {impl : StateImpl S}
    {rec : List S → List S → Option (List S × Option (List S))}
    (Hrec : ∀ ps ss s' p, rec ps ss = some (s', some p) → FoundSpec impl ps ss p)
    (Hmono : ∀ ps ss s' r, rec ps ss = some (s', r) → ss ⊆ s') :
    ∀ {arcs path solved s' p curr},
      dfs_arcs rec arcs path solved = some (s', some p) →
      path.getLast? = some curr → (∀ x ∈ arcs, x ∈ impl.next_states curr) →
      FoundSpec impl path solved p := by
  intro arcs
  induction arcs with
  | nil =>
    intro path solved s' p curr h _ _
    simp only [dfs_arcs, Option.some.injEq, Prod.mk.injEq] at h
    exact absurd h.2 (by simp)
  | cons node rest ih =>
    intro path solved s' p curr h hlast harcs
    simp only [dfs_arcs] at h
    split at h
    · exact ih h hlast (fun x hx => harcs x (List.mem_cons_of_mem _ hx))
    · rename_i hnode
      split at h
      · exact Option.noConfusion h
      · rename_i solved1 p1 heq
        simp only [Option.some.injEq, Prod.mk.injEq] at h
        obtain ⟨-, h2⟩ := h
        subst h2
        obtain ⟨ext, hpe, havoid, hchain, hgoal⟩ := Hrec _ _ _ _ heq
        refine ⟨node :: ext, ?_, ?_, ?_, hgoal⟩
        · rw [hpe, List.append_assoc]; rfl
        · intro x hx hmem
          rcases List.mem_cons.mp hx with rfl | hx'
          · exact hnode hmem
          · exact havoid x hx' (List.mem_cons_of_mem _ hmem)
        · intro c hc
          rw [hlast] at hc
          obtain rfl : curr = c := by injection hc
          exact List.chain'_cons.mpr
            ⟨harcs node (List.mem_cons_self _ _),
             hchain node (by simp [List.getLast?_concat])⟩
      · rename_i solved2 heq
        exact (ih h hlast (fun x hx => harcs x (List.mem_cons_of_mem _ hx))).anti
          (List.Subset.trans (List.subset_cons_self _ _) (Hmono _ _ _ _ heq))

theorem dfs_rec_found {impl : StateImpl S} :
    ∀ {fuel : Nat} {path solved s' p : List S},
      recursive_solve_end_state_DFS impl fuel path solved = some (s', some p) →
      FoundSpec impl path solved p := by
  intro fuel
  induction fuel with
  | zero => intro _ _ _ _ h; exact Option.noConfusion h
  | succ f ih =>
    intro path solved s' p h
    simp only [recursive_solve_end_state_DFS] at h
    split at h
    · exact Option.noConfusion h
    · rename_i curr hlast
      split at h
      · rename_i hend
        simp only [Option.some.injEq, Prod.mk.injEq] at h
        obtain ⟨-, h2⟩ := h
        subst h2
        exact ⟨[], by simp, by simp, fun c hc => List.chain'_singleton c,
          curr, hlast, hend⟩
      · exact dfs_arcs_found (fun ps ss a b hh => ih hh)
          (fun ps ss a b hh => dfs_rec_mono hh) h hlast (fun x hx => hx)

theorem dfsl_arcs_found {impl : StateImpl S}
    {rec : List S → List S → Option (List S × Option (List S))}
    (Hrec : ∀ ps ss s' p, rec ps ss = some (s', some p) → FoundSpec impl ps ss p)
    (Hrestore : ∀ ps ss s', rec ps ss = some (s', none) → s' = ss) :
    ∀ {arcs path solved s' p curr},
      dfsl_arcs rec arcs path solved = some (s', some p) →
      path.getLast? = some curr → (∀ x ∈ arcs, x ∈ impl.next_states curr) →
      FoundSpec impl path solved p := by
  intro arcs
  induction arcs with
  | nil =>
    intro path solved s' p curr h _ _
    simp only [dfsl_arcs, Option.some.injEq, Prod.mk.injEq] at h
    exact absurd h.2 (by simp)
  | cons node rest ih =>
    intro path solved s' p curr h hlast harcs
    simp only [dfsl_arcs] at h
    split at h
    · exact ih h hlast (fun x hx => harcs x (List.mem_cons_of_mem _ hx))
    · rename_i hnode
      split at h
      · exact Option.noConfusion h
      · rename_i solved1 p1 heq
        simp only [Option.some.injEq, Prod.mk.injEq] at h
        obtain ⟨-, h2⟩ := h
        subst h2
        obtain ⟨ext, hpe, havoid, hchain, hgoal⟩ := Hrec _ _ _ _ heq
        refine ⟨node :: ext, ?_, ?_, ?_, hgoal⟩
        · rw [hpe, List.append_assoc]; rfl
        · intro x hx hmem
          rcases List.mem_cons.mp hx with rfl | hx'
          · exact hnode hmem
          · exact havoid x hx' (List.mem_cons_of_mem _ hmem)
        · intro c hc
          rw [hlast] at hc
          obtain rfl : curr = c := by injection hc
          exact List.chain'_cons.mpr
            ⟨harcs node (List.mem_cons_self _ _),
             hchain node (by simp [List.getLast?_concat])⟩
      · rename_i solved2 heq
        rw [Hrestore _ _ _ heq, List.erase_cons_head] at h
        exact ih h hlast (fun x hx => harcs x (List.mem_cons_of_mem _ hx))

theorem dfsl_rec_found {impl : StateImpl S} :
    ∀ {fuel : Nat} {depth : Int} {path solved s' p : List S},
      recursive_solve_end_state_DFSL impl fuel depth path solved = some (s', some p) →
      FoundSpec impl path solved p := by
  intro fuel
  induction fuel with
  | zero => intro _ _ _ _ _ h; exact Option.noConfusion h
  | succ f ih =>
    intro depth path solved s' p h
    simp only [recursive_solve_end_state_DFSL] at h
    split at h
    · simp only [Option.some.injEq, Prod.mk.injEq] at h
      exact absurd h.2 (by simp)
    · split at h
      · exact Option.noConfusion h
      · rename_i curr hlast
        split at h
        · rename_i hend
          simp only [Option.some.injEq, Prod.mk.injEq] at h
          obtain ⟨-, h2⟩ := h
          subst h2
          exact ⟨[], by simp, by simp, fun c hc => List.chain'_singleton c,
            curr, hlast, hend⟩
        · exact dfsl_arcs_found (fun ps ss a b hh => ih hh)
            (fun ps ss a hh => dfsl_rec_restore hh) h hlast (fun x hx => hx)

/-! ### The PDFS successor sort -/

theorem keyArcs_map_fst {rate : S → Option ℚ} :
    ∀ {l : List S} {kl}, keyArcs rate l = some kl → kl.map Prod.fst = l := by
  intro l
  induction l with
  | nil =>
    intro kl h
    simp only [keyArcs, Option.some.injEq] at h
    subst h; rfl
  | cons s rest ih =>
    intro kl h
    simp only [keyArcs] at h
    split at h
    · exact Option.noConfusion h
    · rename_i r heq
      cases hrest : keyArcs rate rest with
      | none => rw [hrest] at h; exact Option.noConfusion h
      | some kl' =>
        rw [hrest] at h
        simp only [Option.map_some', Option.some.injEq] at h
        subst h
        simp [ih hrest]

theorem keyArcs_rate_eq {rate : S → Option ℚ} :
    ∀ {l : List S} {kl}, keyArcs rate l = some kl →
      ∀ pr ∈ kl, rate pr.1 = some pr.2 := by
  intro l
  induction l with
  | nil =>
    intro kl h
    simp only [keyArcs, Option.some.injEq] at h
    subst h; simp
  | cons s rest ih =>
    intro kl h
    simp only [keyArcs] at h
    split at h
    · exact Option.noConfusion h
    · rename_i r heq
      cases hrest : keyArcs rate rest with
      | none => rw [hrest] at h; exact Option.noConfusion h
      | some kl' =>
        rw [hrest] at h
        simp only [Option.map_some', Option.some.injEq] at h
        subst h
        intro pr hpr
        rcases List.mem_cons.mp hpr with rfl | hpr'
        · exact heq
        · exact ih hrest pr hpr'

theorem insertDesc_perm (x : S × ℚ) :
    ∀ l, List.Perm (insertDesc x l) (x :: l) := by
  intro l
  induction l with
  | nil => simp [insertDesc]
  | cons y ys ih =>
    simp only [insertDesc]
    split
    · exact List.Perm.refl _
    · exact List.Perm.trans (List.Perm.cons y ih) (List.Perm.swap x y ys)

theorem stableSortDesc_perm :
    ∀ l : List (S × ℚ), List.Perm (stableSortDesc l) l := by
  intro l
  induction l with
  | nil => simp [stableSortDesc]
  | cons x rest ih =>
    exact List.Perm.trans (insertDesc_perm x _) (List.Perm.cons x ih)

theorem sortArcs_perm {rate : S → Option ℚ} {arcs l' : List S}
    (h : sortArcs rate arcs = some l') : List.Perm l' arcs := by
  simp only [sortArcs] at h
  cases hk : keyArcs rate arcs with
  | none => rw [hk] at h; exact Option.noConfusion h
  | some kl =>
    rw [hk] at h
    simp only [Option.map_some', Option.some.injEq] at h
    subst h
    have := List.Perm.map Prod.fst (stableSortDesc_perm kl)
    rw [keyArcs_map_fst hk] at this
    exact this

theorem sortArcs_mem {rate : S → Option ℚ} {arcs l' : List S}
    (h : sortArcs rate arcs = some l') : ∀ x ∈ l', x ∈ arcs :=
  fun x hx => (sortArcs_perm h).mem_iff.mp hx

theorem insertDesc_sorted {x : S × ℚ} {l : List (S × ℚ)}
    (h : List.Pairwise (fun a b : S × ℚ => b.2 ≤ a.2) l) :
    List.Pairwise (fun a b : S × ℚ => b.2 ≤ a.2) (insertDesc x l) := by
  induction l with
  | nil => simp [insertDesc]
  | cons y ys ih =>
    rw [List.pairwise_cons] at h
    simp only [insertDesc]
    split
    · rename_i hyx
      refine List.pairwise_cons.mpr ⟨?_, List.pairwise_cons.mpr h⟩
      intro z hz
      rcases List.mem_cons.mp hz with rfl | hz'
      · exact hyx
      · exact le_trans (h.1 z hz') hyx
    · rename_i hyx
      refine List.pairwise_cons.mpr ⟨?_, ih h.2⟩
      intro z hz
      have hz' := (insertDesc_perm x ys).mem_iff.mp hz
      rcases List.mem_cons.mp hz' with rfl | hz''
      · exact le_of_not_le hyx
      · exact h.1 z hz''

theorem stableSortDesc_sorted :
    ∀ l : List (S × ℚ),
      List.Pairwise (fun a b : S × ℚ => b.2 ≤ a.2) (stableSortDesc l) := by
  intro l
  induction l with
  | nil => simp [stableSortDesc]
  | cons x rest ih => exact insertDesc_sorted ih

theorem insertDesc_filter_ne {x : S × ℚ} {r : ℚ} (hx : x.2 ≠ r) :
    ∀ l : List (S × ℚ),
      (insertDesc x l).filter (fun pr => pr.2 == r) =
        l.filter (fun pr => pr.2 == r) := by
  intro l
  induction l with
  | nil => simp [insertDesc, List.filter_cons, beq_iff_eq, hx]
  | cons y ys ih =>
    simp only [insertDesc]
    split
    · simp [List.filter_cons, beq_iff_eq, hx]
    · by_cases hy : y.2 = r
      · simp [List.filter_cons, beq_iff_eq, hy, ih]
      · simp [List.filter_cons, beq_iff_eq, hy, ih]

theorem insertDesc_filter_eq {x : S × ℚ} {r : ℚ} (hx : x.2 = r) :
    ∀ l : List (S × ℚ),
      List.Pairwise (fun a b : S × ℚ => b.2 ≤ a.2) l →
      (insertDesc x l).filter (fun pr => pr.2 == r) =
        x :: l.filter (fun pr => pr.2 == r) := by
  intro l
  induction l with
  | nil => intro _; simp [insertDesc, List.filter_cons, beq_iff_eq, hx]
  | cons y ys ih =>
    intro hsorted
    rw [List.pairwise_cons] at hsorted
    simp only [insertDesc]
    split
    · simp [List.filter_cons, beq_iff_eq, hx]
    · rename_i hyx
      have hy : y.2 ≠ r := by
        intro hyr
        exact hyx (le_of_eq (hx ▸ hyr))
      simp [List.filter_cons, beq_iff_eq, hy, ih hsorted.2]

theorem stableSortDesc_filter (r : ℚ) :
    ∀ l : List (S × ℚ),
      (stableSortDesc l).filter (fun pr => pr.2 == r) =
        l.filter (fun pr => pr.2 == r) := by
  intro l
  induction l with
  | nil => rfl
  | cons x rest ih =>
    by_cases hx : x.2 = r
    · rw [stableSortDesc, insertDesc_filter_eq hx _ (stableSortDesc_sorted rest), ih]
      simp [List.filter_cons, beq_iff_eq, hx]
    · rw [stableSortDesc, insertDesc_filter_ne hx, ih]
      simp [List.filter_cons, beq_iff_eq, hx]

/-! ### Depth bound of DFSL and wrapper facts -/

theorem dfsl_arcs_bound {d : Int}
    {rec : List S → List S → Option (List S × Option (List S))}
    (Hrec : ∀ ps ss s' p, rec ps ss = some (s', some p) →
      (p.length : Int) ≤ ps.length + d) :
    ∀ {arcs path solved s' p}, dfsl_arcs rec arcs path solved = some (s', some p) →
      (p.length : Int) ≤ path.length + 1 + d := by
  intro arcs
  induction arcs with
  | nil =>
    intro path solved s' p h
    simp only [dfsl_arcs, Option.some.injEq, Prod.mk.injEq] at h
    exact absurd h.2 (by simp)
  | cons node rest ih =>
    intro path solved s' p h
    simp only [dfsl_arcs] at h
    split at h
    · exact ih h
    · split at h
      · exact Option.noConfusion h
      · rename_i solved1 p1 heq
        simp only [Option.some.injEq, Prod.mk.injEq] at h
        obtain ⟨-, h2⟩ := h
        subst h2
        have := Hrec _ _ _ _ heq
        simp only [List.length_append, List.length_cons, List.length_nil] at this
        push_cast at this ⊢
        omega
      · exact ih h

theorem dfsl_rec_bound {impl : StateImpl S} :
    ∀ {fuel : Nat} {depth : Int} {path solved s' p : List S},
      recursive_solve_end_state_DFSL impl fuel depth path solved = some (s', some p) →
      (p.length : Int) ≤ path.length + depth := by
  intro fuel
  induction fuel with
  | zero => intro _ _ _ _ _ h; exact Option.noConfusion h
  | succ f ih =>
    intro depth path solved s' p h
    simp only [recursive_solve_end_state_DFSL] at h
    split at h
    · simp only [Option.some.injEq, Prod.mk.injEq] at h
      exact absurd h.2 (by simp)
    · rename_i hdep
      split at h
      · exact Option.noConfusion h
      · split at h
        · simp only [Option.some.injEq, Prod.mk.injEq] at h
          obtain ⟨-, h2⟩ := h
          subst h2
          omega
        · have := dfsl_arcs_bound (fun ps ss a b hh => ih hh) h
          omega

theorem dfs_wrapper_found {x : Option (List S × Option (List S))} {p : List S} :
    dfs_wrapper x = some (.found p) → ∃ s', x = some (s', some p) ∧ p ≠ [] := by
  match x with
  | none => intro h; exact Option.noConfusion h
  | some (a, none) => intro h; simp [dfs_wrapper] at h
  | some (a, some []) => intro h; simp [dfs_wrapper] at h
  | some (a, some (s :: rest)) =>
    intro h
    simp only [dfs_wrapper, Option.some.injEq, SearchResult.found.injEq] at h
    subst h
    exact ⟨a, rfl, by simp⟩

theorem dfs_wrapper_ne_notImpl {x : Option (List S × Option (List S))} :
    dfs_wrapper x ≠ some .notImpl := by
  match x with
  | none => simp [dfs_wrapper]
  | some (a, none) => simp [dfs_wrapper]
  | some (a, some []) => simp [dfs_wrapper]
  | some (a, some (s :: rest)) => simp [dfs_wrapper]

theorem pdfs_wrapper_found {x : Option (PdfsRes S)} {p : List S} :
    pdfs_wrapper x = some (.found p) → ∃ s', x = some (.res s' (some p)) ∧ p ≠ [] := by
  match x with
  | none => intro h; exact Option.noConfusion h
  | some .raised => intro h; simp [pdfs_wrapper] at h
  | some (.res a none) => intro h; simp [pdfs_wrapper] at h
  | some (.res a (some [])) => intro h; simp [pdfs_wrapper] at h
  | some (.res a (some (s :: rest))) =>
    intro h
    simp only [pdfs_wrapper, Option.some.injEq, SearchResult.found.injEq] at h
    subst h
    exact ⟨a, rfl, by simp⟩

theorem FoundSpec.from_start {impl : StateImpl S} {start : S} {p : List S}
    (h : FoundSpec impl [start] [start] p) :
    p.head? = some start ∧ start ∉ p.tail ∧ ValidSolution impl start p := by
  obtain ⟨ext, hpe, havoid, hchain, hgoal⟩ := h
  subst hpe
  refine ⟨rfl, ?_, rfl, ?_, hgoal⟩
  · intro hmem
    exact havoid start hmem (List.mem_singleton_self _)
  · exact hchain start rfl

/-! ### Chains and reachability -/

theorem reachN_of_chain {impl : StateImpl S} {start : S} :
    ∀ {p : List S} {g : S}, IsChain impl p → p.head? = some start →
      p.getLast? = some g → ReachN impl start (p.length - 1) g := by
  intro p
  induction p using List.reverseRecOn with
  | nil => intro g _ _ h; exact Option.noConfusion h
  | append_singleton q a ih =>
    intro g hchain hhead hlast
    rw [List.getLast?_concat] at hlast
    replace hlast : a = g := by injection hlast
    subst hlast
    cases q with
    | nil =>
      have ha : a = start := by simpa using hhead
      subst ha
      rfl
    | cons b q' =>
      rw [IsChain, List.chain'_append] at hchain
      obtain ⟨hc1, -, hc3⟩ := hchain
      have hhead' : (b :: q').head? = some start := by simpa using hhead
      have hne : (b :: q') ≠ ([] : List S) := by simp
      have hw : (b :: q').getLast? = some ((b :: q').getLast hne) :=
        List.getLast?_eq_getLast _ hne
      have hrw := ih hc1 hhead' hw
      have hedge : a ∈ impl.next_states ((b :: q').getLast hne) := hc3 _ hw a rfl
      have hres : ReachN impl start ((b :: q').length - 1 + 1) a :=
        ⟨_, hrw, hedge⟩
      have hlen : ((b :: q') ++ [a]).length - 1 = (b :: q').length - 1 + 1 := by
        simp
      rw [hlen]
      exact hres

theorem chain_of_reachN {impl : StateImpl S} {start : S} :
    ∀ {k : Nat} {g : S}, ReachN impl start k g →
      ∃ p : List S, IsChain impl p ∧ p.head? = some start ∧
        p.getLast? = some g ∧ p.length = k + 1 := by
  intro k
  induction k with
  | zero =>
    intro g h
    obtain rfl : g = start := h
    exact ⟨[g], List.chain'_singleton g, rfl, rfl, rfl⟩
  | succ k ih =>
    intro g h
    obtain ⟨b, hb, hg⟩ := h
    obtain ⟨p, hchain, hhead, hlast, hlen⟩ := ih hb
    refine ⟨p ++ [g], ?_, ?_, ?_, ?_⟩
    · refine (List.chain'_append).mpr ⟨hchain, List.chain'_singleton g, ?_⟩
      intro x hx y hy
      rw [hlast] at hx
      obtain rfl : b = x := by injection hx
      obtain rfl : g = y := by injection hy
      exact hg
    · cases p with
      | nil => exact Option.noConfusion hhead
      | cons a p' => simpa using hhead
    · exact List.getLast?_concat _
    · simp [hlen]

theorem exists_dup_split {l : List S} (h : ¬ l.Nodup) :
    ∃ (a : S) (l₁ l₂ l₃ : List S), l = l₁ ++ a :: l₂ ++ a :: l₃ := by
  induction l with
  | nil => exact absurd List.nodup_nil h
  | cons x xs ih =>
    by_cases hx : x ∈ xs
    · obtain ⟨l₂, l₃, rfl⟩ := List.append_of_mem hx
      exact ⟨x, [], l₂, l₃, rfl⟩
    · have hxs : ¬ xs.Nodup := fun hn => h (List.nodup_cons.mpr ⟨hx, hn⟩)
      obtain ⟨a, l₁, l₂, l₃, rfl⟩ := ih hxs
      exact ⟨a, x :: l₁, l₂, l₃, rfl⟩

theorem chain_shortcut {impl : StateImpl S} {a : S} {l₁ l₂ l₃ : List S}
    (h : IsChain impl (l₁ ++ a :: l₂ ++ a :: l₃)) :
    IsChain impl (l₁ ++ a :: l₃) := by
  rw [IsChain, List.chain'_append] at h
  obtain ⟨h1, h2, -⟩ := h
  rw [List.chain'_append] at h1
  obtain ⟨h1a, h1b, h1c⟩ := h1
  refine (List.chain'_append).mpr ⟨h1a, h2, ?_⟩
  intro x hx y hy
  have hxa := h1c x hx a rfl
  obtain rfl : a = y := by injection hy
  exact hxa

theorem chain_dedup {impl : StateImpl S} :
    ∀ (n : Nat) (l : List S), l.length ≤ n → IsChain impl l →
      ∃ l', IsChain impl l' ∧ l'.Nodup ∧ l'.head? = l.head? ∧
        l'.getLast? = l.getLast? ∧ l'.length ≤ l.length := by
  intro n
  induction n with
  | zero =>
    intro l hl hc
    have : l = [] := List.length_eq_zero.mp (Nat.le_zero.mp hl)
    subst this
    exact ⟨[], hc, List.nodup_nil, rfl, rfl, le_rfl⟩
  | succ n ih =>
    intro l hl hc
    by_cases hnd : l.Nodup
    · exact ⟨l, hc, hnd, rfl, rfl, le_rfl⟩
    · obtain ⟨a, l₁, l₂, l₃, rfl⟩ := exists_dup_split hnd
      have hshort := chain_shortcut hc
      have hlen : (l₁ ++ a :: l₃).length ≤ n := by
        simp only [List.length_append, List.length_cons] at hl ⊢
        omega
      obtain ⟨l', hc', hnd', hh', hl', hle'⟩ := ih _ hlen hshort
      refine ⟨l', hc', hnd', ?_, ?_, ?_⟩
      · rw [hh']; cases l₁ <;> simp
      · have hz : (a :: l₃).getLast? = some ((a :: l₃).getLast (by simp)) :=
          List.getLast?_eq_getLast _ (by simp)
        rw [hl', List.getLast?_append, List.getLast?_append, hz]
        rfl
      · refine le_trans hle' ?_
        simp only [List.length_append, List.length_cons]
        omega

/-! ### Completeness of depth-limited DFS within its budget -/

theorem dfsl_arcs_reach
    {rec : List S → List S → Option (List S × Option (List S))}
    (Hrestore : ∀ ps ss s', rec ps ss = some (s', none) → s' = ss) :
    ∀ {arcs path solved s' t}, dfsl_arcs rec arcs path solved = some (s', none) →
      t ∈ arcs → t ∉ solved →
      ∃ s'', rec (path ++ [t]) (t :: solved) = some (s'', none) := by
  intro arcs
  induction arcs with
  | nil =>
    intro path solved s' t _ ht _
    exact absurd ht (List.not_mem_nil t)
  | cons node rest ih =>
    intro path solved s' t h ht htsol
    simp only [dfsl_arcs] at h
    split at h
    · rename_i hnode
      rcases List.mem_cons.mp ht with rfl | ht'
      · exact absurd hnode htsol
      · exact ih h ht' htsol
    · rename_i hnode
      split at h
      · exact Option.noConfusion h
      · simp at h
      · rename_i solved2 heq
        rcases List.mem_cons.mp ht with rfl | ht'
        · exact ⟨solved2, heq⟩
        · rw [Hrestore _ _ _ heq, List.erase_cons_head] at h
          exact ih h ht' htsol

theorem dfsl_rec_complete {impl : StateImpl S} :
    ∀ {fuel : Nat} {depth : Int} {path solved s' : List S},
      recursive_solve_end_state_DFSL impl fuel depth path solved = some (s', none) →
      (∀ x, x ∈ solved ↔ x ∈ path) →
      ∀ {curr : S}, path.getLast? = some curr →
      ∀ {c : List S}, IsChain impl (curr :: c) →
        c.Nodup → (∀ x ∈ c, x ∉ path) → (c.length : Int) ≤ depth →
        ∀ {g : S}, (curr :: c).getLast? = some g →
          impl.is_end_state g = false := by
  intro fuel
  induction fuel with
  | zero => intro _ _ _ _ h; exact Option.noConfusion h
  | succ f ih =>
    intro depth path solved s' h hiff curr hlast c hchain hnd havoid hclen g hg
    simp only [recursive_solve_end_state_DFSL] at h
    split at h
    · rename_i hdep
      have : (0 : Int) ≤ c.length := Int.natCast_nonneg _
      omega
    · rename_i hdep
      split at h
      · exact Option.noConfusion h
      · rename_i c0 heqlast
        rw [hlast] at heqlast
        have hcc : c0 = curr := by
          injection heqlast with hh
          exact hh.symm
        rw [hcc] at h
        split at h
        · simp at h
        · rename_i hend
          match c, hchain, hnd, havoid, hclen, hg with
          | [], _, _, _, _, hg =>
            obtain rfl : curr = g := by
              simpa using hg
            exact Bool.eq_false_iff.mpr hend
          | t :: c', hchain, hnd, havoid, hclen, hg =>
            have hedge : t ∈ impl.next_states curr :=
              (List.chain'_cons.mp hchain).1
            have htpath : t ∉ path := havoid t (List.mem_cons_self _ _)
            have htsol : t ∉ solved := fun hmem => htpath ((hiff t).mp hmem)
            obtain ⟨s'', hrec⟩ := dfsl_arcs_reach
              (fun ps ss a hh => dfsl_rec_restore hh) h hedge htsol
            have hiff' : ∀ x, x ∈ t :: solved ↔ x ∈ path ++ [t] := by
              intro x
              simp only [List.mem_cons, List.mem_append, List.mem_singleton]
              rw [hiff x]
              tauto
            have hnd' := (List.nodup_cons.mp hnd).2
            have htc' := (List.nodup_cons.mp hnd).1
            have havoid' : ∀ x ∈ c', x ∉ path ++ [t] := by
              intro x hx
              simp only [List.mem_append, List.mem_singleton]
              push_neg
              exact ⟨havoid x (List.mem_cons_of_mem _ hx),
                fun hxt => htc' (hxt ▸ hx)⟩
            have hclen' : (c'.length : Int) ≤ depth - 1 := by
              simp only [List.length_cons] at hclen
              push_cast at hclen ⊢
              omega
            have hchain' : IsChain impl (t :: c') :=
              (List.chain'_cons.mp hchain).2
            have hg' : (t :: c').getLast? = some g := by
              rw [← List.getLast?_cons_cons]
              exact hg
            exact ih hrec hiff' (List.getLast?_concat _) hchain' hnd'
              havoid' hclen' hg'

/-! ### PDFS found paths -/

theorem pdfs_arcs_found {impl : StateImpl S}
    {rec : List S → List S → Option (PdfsRes S)}
    (Hrec : ∀ ps ss s' p, rec ps ss = some (.res s' (some p)) → FoundSpec impl ps ss p)
    (Hmono : ∀ ps ss s' r, rec ps ss = some (.res s' r) → ss ⊆ s') :
    ∀ {arcs path solved s' p curr},
      pdfs_arcs rec arcs path solved = some (.res s' (some p)) →
      path.getLast? = some curr → (∀ x ∈ arcs, x ∈ impl.next_states curr) →
      FoundSpec impl path solved p := by
  intro arcs
  induction arcs with
  | nil =>
    intro path solved s' p curr h _ _
    simp only [pdfs_arcs, Option.some.injEq, PdfsRes.res.injEq] at h
    exact absurd h.2 (by simp)
  | cons node rest ih =>
    intro path solved s' p curr h hlast harcs
    simp only [pdfs_arcs] at h
    split at h
    · exact ih h hlast (fun x hx => harcs x (List.mem_cons_of_mem _ hx))
    · rename_i hnode
      split at h
      · exact Option.noConfusion h
      · simp at h
      · rename_i solved1 p1 heq
        simp only [Option.some.injEq, PdfsRes.res.injEq] at h
        obtain ⟨-, h2⟩ := h
        subst h2
        obtain ⟨ext, hpe, havoid, hchain, hgoal⟩ := Hrec _ _ _ _ heq
        refine ⟨node :: ext, ?_, ?_, ?_, hgoal⟩
        · rw [hpe, List.append_assoc]; rfl
        · intro x hx hmem
          rcases List.mem_cons.mp hx with rfl | hx'
          · exact hnode hmem
          · exact havoid x hx' (List.mem_cons_of_mem _ hmem)
        · intro c hc
          rw [hlast] at hc
          obtain rfl : curr = c := by injection hc
          exact List.chain'_cons.mpr
            ⟨harcs node (List.mem_cons_self _ _),
             hchain node (by simp [List.getLast?_concat])⟩
      · rename_i solved2 heq
        exact (ih h hlast (fun x hx => harcs x (List.mem_cons_of_mem _ hx))).anti
          (List.Subset.trans (List.subset_cons_self _ _) (Hmono _ _ _ _ heq))

theorem pdfs_rec_found {impl : StateImpl S} :
    ∀ {fuel : Nat} {path solved s' p : List S},
      recursive_solve_end_state_PDFS impl fuel path solved = some (.res s' (some p)) →
      FoundSpec impl path solved p := by
  intro fuel
  induction fuel with
  | zero => intro _ _ _ _ h; exact Option.noConfusion h
  | succ f ih =>
    intro path solved s' p h
    simp only [recursive_solve_end_state_PDFS] at h
    split at h
    · exact Option.noConfusion h
    · rename_i curr hlast
      split at h
      · rename_i hend
        simp only [Option.some.injEq, PdfsRes.res.injEq] at h
        obtain ⟨-, h2⟩ := h
        subst h2
        exact ⟨[], by simp, by simp, fun c hc => List.chain'_singleton c,
          curr, hlast, hend⟩
      · split at h
        · simp at h
        · rename_i sortedArcs heqs
          exact pdfs_arcs_found (fun ps ss a b hh => ih hh)
            (fun ps ss a b hh => pdfs_rec_mono hh) h hlast (sortArcs_mem heqs)

/-! ### Claims C3, C5, C6, C7, C10 -/

/-- C5: the RDFS entry point never invokes the shuffled-order recursive
helper; its body, exactly like DFS's, calls
`recursive_solve_end_state_DFS`, so for every input RDFS returns exactly
the same result (path or `NoSolution`) as plain DFS. -/
theorem claim5_rdfs_equals_dfs (impl : StateImpl S) (start : S) (fuel : Nat) :
    solve_end_state_RDFS impl start fuel = solve_end_state_DFS impl start fuel :=
  rfl

/-- C10: the RDFSL entry point likewise never invokes its shuffled-order
recursive helper — it calls `recursive_solve_end_state_DFSL` — so for every
input and every depth RDFSL returns exactly the same result as DFSL. -/
theorem claim10_rdfsl_equals_dfsl (impl : StateImpl S) (start : S)
    (depth : Int) (fuel : Nat) :
    solve_end_state_RDFSL impl start depth fuel =
      solve_end_state_DFSL impl start depth fuel :=
  rfl

/-- C7 is refuted: on the toggle puzzle with start state "off", PDFS does
not return `[off, on]` — sorting the successors calls `attractive_rate()`,
which `LightBulb` omits, so the call raises `NotImplementedError`. -/
theorem claim7_counterexample :
    solve_end_state_PDFS LightBulb false 2 = some SearchResult.notImpl ∧
    solve_end_state_PDFS LightBulb false 2 ≠
      some (SearchResult.found [false, true]) :=
  ⟨rfl, by decide⟩

/-- C7 amended: on the toggle puzzle BFS and DFS each return `[off, on]`,
but PDFS fails with `NotImplementedError` because the toggle domain omits
`attractive_rate()` (for every sufficient fuel `f + 2`). -/
theorem claim7_amended (f : Nat) :
    solve_end_state_BFS LightBulb false (f + 2) =
      some (SearchResult.found [false, true]) ∧
    solve_end_state_DFS LightBulb false (f + 2) =
      some (SearchResult.found [false, true]) ∧
    solve_end_state_PDFS LightBulb false (f + 2) = some SearchResult.notImpl :=
  ⟨rfl, rfl, rfl⟩

/-- C6 is refuted for BFS: in the BFS invocation on `threeLine` (whose loop
state is seeded with queue `[(start, 0)]` and an *empty* parent dictionary),
after two iterations the start state `0` has been re-discovered as a
successor of `1` — it now has a parent entry — and re-enqueued at depth 2. -/
theorem claim6_counterexample :
    bfsStep threeLine 0 ⟨[((0 : Fin 3), 0)], []⟩ = .next ⟨[(1, 1)], [(1, 0)]⟩ ∧
    bfsStep threeLine 0 ⟨[((1 : Fin 3), 1)], [(1, 0)]⟩ =
      .next ⟨[(0, 2), (2, 2)], [(2, 1), (0, 1), (1, 0)]⟩ ∧
    (lookupS [((2 : Fin 3), (1 : Fin 3)), (0, 1), (1, 0)] 0).isSome = true ∧
    ((0 : Fin 3), 2) ∈ [((0 : Fin 3), 2), ((2 : Fin 3), 2)] := by
  refine ⟨?_, ?_, ?_, ?_⟩ <;> decide

/-- C6 amended: each solve invocation uses fresh per-call bookkeeping; the
DFS-family strategies (DFS, DFSL, PDFS) seed their visited set with exactly
the start node — so their returned paths begin at the start state and never
revisit it — while BFS's visited bookkeeping (the parent dictionary) starts
empty, so BFS can re-discover and re-enqueue the start state. -/
theorem claim6_amended (impl : StateImpl S) (start : S) (fuel : Nat)
    (depth : Int) :
    (∀ p, solve_end_state_DFS impl start fuel = some (.found p) →
      p.head? = some start ∧ start ∉ p.tail) ∧
    (∀ p, solve_end_state_DFSL impl start depth fuel = some (.found p) →
      p.head? = some start ∧ start ∉ p.tail) ∧
    (∀ p, solve_end_state_PDFS impl start fuel = some (.found p) →
      p.head? = some start ∧ start ∉ p.tail) ∧
    solve_end_state_BFS impl start fuel =
      bfsLoop impl start fuel ⟨[(start, 0)], []⟩ := by
  refine ⟨?_, ?_, ?_, rfl⟩
  · intro p hp
    obtain ⟨s', hx, -⟩ := dfs_wrapper_found hp
    have hs := (dfs_rec_found hx).from_start
    exact ⟨hs.1, hs.2.1⟩
  · intro p hp
    obtain ⟨s', hx, -⟩ := dfs_wrapper_found hp
    have hs := (dfsl_rec_found hx).from_start
    exact ⟨hs.1, hs.2.1⟩
  · intro p hp
    obtain ⟨s', hx, -⟩ := pdfs_wrapper_found hp
    have hs := (pdfs_rec_found hx).from_start
    exact ⟨hs.1, hs.2.1⟩

theorem claim6_witness :
    List.head? [false, true] = some false ∧ false ∉ List.tail [false, true] :=
  (claim6_amended LightBulb false 3 0).1 [false, true] (by decide)

/-- C3: DFSL called with a non-negative `depth = d` never returns a path
with more than `d` transitions (more than `d + 1` states); if every chain
from the start to a goal has strictly more than `d` transitions, a
terminating call returns `NoSolution`; and RDFSL behaves identically to
DFSL at the same depth. -/
theorem claim3_dfsl_depth_limit (impl : StateImpl S) (start : S) (d : Int)
    (hd : 0 ≤ d) (fuel : Nat) (r : SearchResult S)
    (hr : solve_end_state_DFSL impl start d fuel = some r) :
    (∀ p, r = .found p → (p.length : Int) ≤ d + 1) ∧
    ((∀ c : List S, IsChain impl c → c.head? = some start →
        (∃ g, c.getLast? = some g ∧ impl.is_end_state g = true) →
        d < (c.length : Int) - 1) → r = .noSolution) ∧
    solve_end_state_RDFSL impl start d fuel =
      solve_end_state_DFSL impl start d fuel := by
  refine ⟨?_, ?_, rfl⟩
  · intro p hp
    subst hp
    obtain ⟨s', hx, -⟩ := dfs_wrapper_found hr
    have hb := dfsl_rec_bound hx
    simp only [List.length_cons, List.length_nil] at hb
    omega
  · intro hmin
    match r, hr with
    | .found p, hr =>
      exfalso
      obtain ⟨s', hx, -⟩ := dfs_wrapper_found hr
      have hb := dfsl_rec_bound hx
      simp only [List.length_cons, List.length_nil] at hb
      obtain ⟨-, -, hh, hc, hg⟩ := (dfsl_rec_found hx).from_start
      have hlt := hmin p hc hh hg
      omega
    | .noSolution, hr => rfl
    | .notImpl, hr => exact absurd hr dfs_wrapper_ne_notImpl

theorem claim3_witness :
    ((([0, 1, 2] : List (Fin 3)).length : Int) ≤ 2 + 1) :=
  (claim3_dfsl_depth_limit threeLine 0 2 (by decide) 10 (.found [0, 1, 2])
    (by decide)).1 [0, 1, 2] rfl

/-! ### Claim C9: the PDFS successor order -/

/-- C9: at a non-goal node, PDFS tries the successors in the order produced
by the stable descending sort on `attractive_rate()`: that order is a
permutation of `next_states()`, it is non-increasing in the rate, and for
every rate value the successors having that rate appear in exactly the
relative order `next_states()` returned them in (no secondary key). -/
theorem claim9_pdfs_order (impl : StateImpl S) (f : Nat) (path solved : List S)
    (curr : S) (hlast : path.getLast? = some curr)
    (hend : impl.is_end_state curr = false)
    (sorted : List S)
    (hsort : sortArcs impl.attractive_rate (impl.next_states curr) = some sorted) :
    recursive_solve_end_state_PDFS impl (f + 1) path solved =
      pdfs_arcs (recursive_solve_end_state_PDFS impl f) sorted path solved ∧
    List.Perm sorted (impl.next_states curr) ∧
    List.Pairwise (fun a b => ∀ ra rb, impl.attractive_rate a = some ra →
      impl.attractive_rate b = some rb → rb ≤ ra) sorted ∧
    ∀ r : ℚ, sorted.filter (fun s => impl.attractive_rate s == some r) =
      (impl.next_states curr).filter
        (fun s => impl.attractive_rate s == some r) := by
  obtain ⟨kl, hk, hs⟩ : ∃ kl, keyArcs impl.attractive_rate (impl.next_states curr) = some kl ∧
      sorted = (stableSortDesc kl).map Prod.fst := by
    simp only [sortArcs] at hsort
    cases hkl : keyArcs impl.attractive_rate (impl.next_states curr) with
    | none => rw [hkl] at hsort; exact Option.noConfusion hsort
    | some kl =>
      rw [hkl] at hsort
      simp only [Option.map_some', Option.some.injEq] at hsort
      exact ⟨kl, rfl, hsort.symm⟩
  refine ⟨?_, sortArcs_perm hsort, ?_, ?_⟩
  · simp only [recursive_solve_end_state_PDFS, hlast, hend, hsort]
    rfl
  · subst hs
    rw [List.pairwise_map]
    refine List.Pairwise.imp_of_mem ?_ (stableSortDesc_sorted kl)
    intro pr qr hpr hqr hle ra rb hra hrb
    have hpr' : pr ∈ kl := (stableSortDesc_perm kl).mem_iff.mp hpr
    have hqr' : qr ∈ kl := (stableSortDesc_perm kl).mem_iff.mp hqr
    have h1 := keyArcs_rate_eq hk pr hpr'
    have h2 := keyArcs_rate_eq hk qr hqr'
    rw [h1] at hra
    rw [h2] at hrb
    obtain rfl : pr.2 = ra := by injection hra
    obtain rfl : qr.2 = rb := by injection hrb
    exact hle
  · intro r
    subst hs
    have hcongr : ∀ (m : List (S × ℚ)), (∀ pr ∈ m, pr ∈ kl) →
        m.filter ((fun s => impl.attractive_rate s == some r) ∘ Prod.fst) =
          m.filter (fun pr => pr.2 == r) := by
      intro m hm
      refine List.filter_congr ?_
      intro pr hpr
      have hr1 := keyArcs_rate_eq hk pr (hm pr hpr)
      simp only [Function.comp_apply, hr1]
      by_cases hpr2 : pr.2 = r <;> simp [hpr2]
    rw [List.filter_map, hcongr _ (fun pr hpr => (stableSortDesc_perm kl).mem_iff.mp hpr),
      stableSortDesc_filter, ← hcongr _ (fun pr hpr => hpr),
      ← List.filter_map, keyArcs_map_fst hk]

/-! ### Lemmas about `lookupS`, `walkBack` and `bfsExpand` -/

theorem lookupS_mem : ∀ {parent : List (S × S)} {c w : S},
    lookupS parent c = some w → (c, w) ∈ parent := by
  intro parent
  induction parent with
  | nil => intro c w h; exact Option.noConfusion h
  | cons kv rest ih =>
    intro c w h
    obtain ⟨k, v⟩ := kv
    simp only [lookupS] at h
    split at h
    · rename_i hck
      subst hck
      obtain rfl : v = w := by injection h
      exact List.mem_cons_self _ _
    · exact List.mem_cons_of_mem _ (ih h)

theorem walkBack_start {start : S} {parent : List (S × S)} {f : Nat} :
    walkBack start parent (f + 1) start = some [start] := by
  simp [walkBack]

theorem walkBack_mono {start : S} {parent : List (S × S)} :
    ∀ {f f' : Nat} {c : S} {pw : List S},
      walkBack start parent f c = some pw → f ≤ f' →
      walkBack start parent f' c = some pw := by
  intro f
  induction f with
  | zero => intro f' c pw h _; exact Option.noConfusion h
  | succ f ih =>
    intro f' c pw h hle
    match f', hle with
    | f'' + 1, hle =>
      simp only [walkBack] at h ⊢
      by_cases hcs : c = start
      · rw [if_pos hcs] at h ⊢
        exact h
      · rw [if_neg hcs] at h ⊢
        cases hlk : lookupS parent c with
        | none =>
          simp only [hlk] at h
          exact Option.noConfusion h
        | some w =>
          simp only [hlk, Option.map_eq_some'] at h ⊢
          obtain ⟨pw', hpw', rfl⟩ := h
          exact ⟨pw', ih hpw' (by omega), rfl⟩

theorem walkBack_det {start : S} {parent : List (S × S)} {f f' : Nat}
    {c : S} {pw pw' : List S} (h : walkBack start parent f c = some pw)
    (h' : walkBack start parent f' c = some pw') : pw = pw' := by
  have h1 := walkBack_mono h (le_max_left f f')
  have h2 := walkBack_mono h' (le_max_right f f')
  rw [h1] at h2
  injection h2

theorem walkBack_first {start : S} {parent : List (S × S)} {f : Nat}
    {c : S} {pw : List S} (h : walkBack start parent f c = some pw) :
    (lookupS parent c).isSome ∨ c = start := by
  match f with
  | 0 => exact Option.noConfusion h
  | f + 1 =>
    simp only [walkBack] at h
    split at h
    · rename_i hc; exact Or.inr hc
    · split at h
      · exact Option.noConfusion h
      · rename_i w hw; exact Or.inl (by simp [hw])

theorem walkBack_fresh {start node w : S} {parent : List (S × S)}
    (hfresh : lookupS parent node = none) :
    ∀ {f : Nat} {c : S} {pw : List S},
      walkBack start parent f c = some pw →
      walkBack start ((node, w) :: parent) f c = some pw := by
  intro f
  induction f with
  | zero => intro c pw h; exact Option.noConfusion h
  | succ f ih =>
    intro c pw h
    simp only [walkBack] at h ⊢
    by_cases hcs : c = start
    · rw [if_pos hcs] at h ⊢
      exact h
    · rw [if_neg hcs] at h ⊢
      cases hlk : lookupS parent c with
      | none =>
        simp only [hlk] at h
        exact Option.noConfusion h
      | some u =>
        have hcn : ¬ c = node := by
          intro hc
          rw [hc, hfresh] at hlk
          exact Option.noConfusion hlk
        have hlk' : lookupS ((node, w) :: parent) c = some u := by
          simp only [lookupS, if_neg hcn]
          exact hlk
        simp only [hlk, Option.map_eq_some'] at h
        obtain ⟨pw', hpw', rfl⟩ := h
        simp only [hlk', Option.map_eq_some']
        exact ⟨pw', ih hpw', rfl⟩

theorem walkBack_step {start c w : S} {parent : List (S × S)}
    (hc : ¬ c = start) (hl : lookupS parent c = some w)
    {f : Nat} {pw : List S} (hw : walkBack start parent f w = some pw) :
    walkBack start parent (f + 1) c = some (pw ++ [c]) := by
  simp only [walkBack, if_neg hc, hl, hw, Option.map_some']

theorem walkBack_destruct {start c : S} {parent : List (S × S)} {f : Nat}
    {pw : List S} (h : walkBack start parent f c = some pw) (hc : ¬ c = start) :
    ∃ f' w pw', f = f' + 1 ∧ lookupS parent c = some w ∧
      walkBack start parent f' w = some pw' ∧ pw = pw' ++ [c] := by
  match f with
  | 0 => exact Option.noConfusion h
  | f + 1 =>
    simp only [walkBack, if_neg hc] at h
    split at h
    · exact Option.noConfusion h
    · rename_i w hw
      rw [Option.map_eq_some'] at h
      obtain ⟨pw', hpw', rfl⟩ := h
      exact ⟨f, w, pw', rfl, hw, hpw', rfl⟩

theorem bfsExpand_lookup_old {curr : S} {d : Nat} :
    ∀ {arcs : List S} {parent : List (S × S)} {c : S},
      (lookupS parent c).isSome →
      lookupS (bfsExpand parent curr d arcs).1 c = lookupS parent c := by
  intro arcs
  induction arcs with
  | nil => intro parent c _; rfl
  | cons node rest ih =>
    intro parent c hc
    simp only [bfsExpand]
    split
    · exact ih hc
    · rename_i hnode
      have hcn : ¬ c = node := by
        intro hcc
        rw [hcc] at hc
        exact hnode hc
      have hc' : (lookupS ((node, curr) :: parent) c).isSome := by
        simp only [lookupS, if_neg hcn]
        exact hc
      rw [ih hc']
      simp only [lookupS, if_neg hcn]

theorem bfsExpand_arcs_discovered {curr : S} {d : Nat} :
    ∀ {arcs : List S} {parent : List (S × S)},
      ∀ x ∈ arcs, (lookupS (bfsExpand parent curr d arcs).1 x).isSome := by
  intro arcs
  induction arcs with
  | nil => intro parent x hx; exact absurd hx (List.not_mem_nil x)
  | cons node rest ih =>
    intro parent x hx
    simp only [bfsExpand]
    split
    · rename_i hnode
      rcases List.mem_cons.mp hx with rfl | hx'
      · rw [bfsExpand_lookup_old hnode]
        exact hnode
      · exact ih x hx'
    · rename_i hnode
      rcases List.mem_cons.mp hx with rfl | hx'
      · have hx0 : (lookupS ((x, curr) :: parent) x).isSome := by
          simp [lookupS]
        rw [bfsExpand_lookup_old hx0]
        exact hx0
      · exact ih x hx'

theorem bfsExpand_lookup_new {curr : S} {d : Nat} :
    ∀ {arcs : List S} {parent : List (S × S)} {c w : S},
      lookupS (bfsExpand parent curr d arcs).1 c = some w →
      lookupS parent c = some w ∨
        (w = curr ∧ lookupS parent c = none ∧ c ∈ arcs) := by
  intro arcs
  induction arcs with
  | nil => intro parent c w h; exact Or.inl h
  | cons node rest ih =>
    intro parent c w h
    simp only [bfsExpand] at h
    split at h
    · rcases ih h with h' | ⟨hw, hn, hm⟩
      · exact Or.inl h'
      · exact Or.inr ⟨hw, hn, List.mem_cons_of_mem _ hm⟩
    · rename_i hnode
      rcases ih h with h' | ⟨hw, hn, hm⟩
      · by_cases hcn : c = node
        · subst hcn
          simp only [lookupS, if_pos rfl] at h'
          obtain rfl : curr = w := by injection h'
          exact Or.inr ⟨rfl, Option.not_isSome_iff_eq_none.mp hnode,
            List.mem_cons_self _ _⟩
        · simp only [lookupS, if_neg hcn] at h'
          exact Or.inl h'
      · have hcn : ¬ c = node := by
          intro hcc
          subst hcc
          simp [lookupS] at hn
        simp only [lookupS, if_neg hcn] at hn
        exact Or.inr ⟨hw, hn, List.mem_cons_of_mem _ hm⟩

theorem bfsExpand_pair_mem {curr : S} {d : Nat} :
    ∀ {arcs : List S} {parent : List (S × S)} {c w : S},
      (c, w) ∈ (bfsExpand parent curr d arcs).1 →
      (c, w) ∈ parent ∨ w = curr := by
  intro arcs
  induction arcs with
  | nil => intro parent c w h; exact Or.inl h
  | cons node rest ih =>
    intro parent c w h
    simp only [bfsExpand] at h
    split at h
    · exact ih h
    · rcases ih h with h' | h'
      · rcases List.mem_cons.mp h' with h'' | h''
        · obtain ⟨rfl, rfl⟩ : c = node ∧ w = curr := by
            constructor <;> injection h'' <;> simp_all
          exact Or.inr rfl
        · exact Or.inl h''
      · exact Or.inr h'

theorem bfsExpand_news {curr : S} {d : Nat} :
    ∀ {arcs : List S} {parent : List (S × S)},
      ∀ e ∈ (bfsExpand parent curr d arcs).2,
        e.2 = d + 1 ∧ lookupS (bfsExpand parent curr d arcs).1 e.1 = some curr ∧
          lookupS parent e.1 = none ∧ e.1 ∈ arcs := by
  intro arcs
  induction arcs with
  | nil => intro parent e he; exact absurd he (List.not_mem_nil e)
  | cons node rest ih =>
    intro parent e he
    simp only [bfsExpand] at he ⊢
    split at he
    · rename_i hnode
      split
      · obtain ⟨h1, h2, h3, h4⟩ := ih e he
        exact ⟨h1, h2, h3, List.mem_cons_of_mem _ h4⟩
      · simp_all
    · rename_i hnode
      split
      · simp_all
      · rcases List.mem_cons.mp he with rfl | he'
        · refine ⟨rfl, ?_, Option.not_isSome_iff_eq_none.mp hnode,
            List.mem_cons_self _ _⟩
          have hx0 : (lookupS ((node, curr) :: parent) node).isSome := by
            simp [lookupS]
          rw [bfsExpand_lookup_old hx0]
          simp [lookupS]
        · obtain ⟨h1, h2, h3, h4⟩ := ih e he'
          have hen : ¬ e.1 = node := by
            intro hcc
            rw [hcc] at h3
            simp [lookupS] at h3
          simp only [lookupS, if_neg hen] at h3
          exact ⟨h1, h2, h3, List.mem_cons_of_mem _ h4⟩

theorem bfsExpand_all_discovered {curr : S} {d : Nat} :
    ∀ {arcs : List S} {parent : List (S × S)},
      (∀ x ∈ arcs, (lookupS parent x).isSome) →
      bfsExpand parent curr d arcs = (parent, []) := by
  intro arcs
  induction arcs with
  | nil => intro parent _; rfl
  | cons node rest ih =>
    intro parent hall
    simp only [bfsExpand]
    rw [if_pos (hall node (List.mem_cons_self _ _))]
    exact ih (fun x hx => hall x (List.mem_cons_of_mem _ hx))

theorem bfsExpand_length {curr : S} {d : Nat} :
    ∀ {arcs : List S} {parent : List (S × S)},
      (bfsExpand parent curr d arcs).1.length =
        parent.length + (bfsExpand parent curr d arcs).2.length := by
  intro arcs
  induction arcs with
  | nil => intro parent; rfl
  | cons node rest ih =>
    intro parent
    simp only [bfsExpand]
    split
    · exact ih
    · simp only [List.length_cons]
      rw [ih]
      simp only [List.length_cons]
      omega

theorem bfsExpand_fresh_entry {curr : S} {d : Nat} :
    ∀ {arcs : List S} {parent : List (S × S)} {c : S},
      c ∈ arcs → lookupS parent c = none →
      (c, d + 1) ∈ (bfsExpand parent curr d arcs).2 := by
  intro arcs
  induction arcs with
  | nil => intro parent c hc _; exact absurd hc (List.not_mem_nil c)
  | cons node rest ih =>
    intro parent c hc hfresh
    simp only [bfsExpand]
    split
    · rename_i hnode
      rcases List.mem_cons.mp hc with rfl | hc'
      · rw [hfresh] at hnode
        simp at hnode
      · exact ih hc' hfresh
    · rename_i hnode
      rcases List.mem_cons.mp hc with rfl | hc'
      · exact List.mem_cons_self _ _
      · by_cases hcn : c = node
        · subst hcn
          exact List.mem_cons_self _ _
        · refine List.mem_cons_of_mem _ (ih hc' ?_)
          simp only [lookupS, if_neg hcn]
          exact hfresh

theorem bfsExpand_walk {start curr : S} {d : Nat} :
    ∀ {arcs : List S} {parent : List (S × S)} {f : Nat} {c : S} {pw : List S},
      walkBack start parent f c = some pw →
      walkBack start (bfsExpand parent curr d arcs).1 f c = some pw := by
  intro arcs
  induction arcs with
  | nil => intro parent f c pw h; exact h
  | cons node rest ih =>
    intro parent f c pw h
    simp only [bfsExpand]
    split
    · exact ih h
    · rename_i hnode
      exact ih (walkBack_fresh (Option.not_isSome_iff_eq_none.mp hnode) h)

/-- Successful parent-walks that start at an already-discovered node are
insensitive to the extra entries of a grown dictionary that agrees on the
old keys (the walk only ever looks up old keys, by closedness). -/
theorem walkBack_restrict {start : S} {parent pnew : List (S × S)}
    (hagree : ∀ c, (lookupS parent c).isSome → lookupS pnew c = lookupS parent c)
    (hclosed : ∀ c w, (c, w) ∈ parent → (lookupS parent w).isSome ∨ w = start) :
    ∀ {f : Nat} {c : S} {pw : List S}, walkBack start pnew f c = some pw →
      ((lookupS parent c).isSome ∨ c = start) →
      walkBack start parent f c = some pw := by
  intro f
  induction f with
  | zero => intro c pw h _; exact Option.noConfusion h
  | succ f ih =>
    intro c pw h hc
    by_cases hcs : c = start
    · subst hcs
      rw [walkBack_start] at h ⊢
      exact h
    · have hsome : (lookupS parent c).isSome := by
        rcases hc with hc | hc
        · exact hc
        · exact absurd hc hcs
      rw [Option.isSome_iff_exists] at hsome
      obtain ⟨w, hw⟩ := hsome
      obtain ⟨f', w', pw', hf, hl', hwalk', rfl⟩ := walkBack_destruct h hcs
      obtain rfl : f' = f := by omega
      have hwn : lookupS pnew c = some w := by
        rw [hagree c (by simp [hw])]
        exact hw
      rw [hl'] at hwn
      have hww : w' = w := by injection hwn
      rw [hww] at hwalk'
      have hwold : (lookupS parent w).isSome ∨ w = start :=
        hclosed c w (lookupS_mem hw)
      exact walkBack_step hcs hw (ih hwalk' hwold)

/-- One BFS iteration that continues preserves the invariant. -/
theorem bfsInv_step {impl : StateImpl S} {start : S} {st st' : BfsState S}
    (hInv : BfsInv impl start st)
    (hstep : bfsStep impl start st = .next st') : BfsInv impl start st' := by
  rcases st with ⟨queue, parent⟩
  cases queue with
  | nil => simp [bfsStep] at hstep
  | cons e0 rest =>
  obtain ⟨curr, d⟩ := e0
  simp only [bfsStep] at hstep
  split at hstep
  · split at hstep <;> exact BfsOutcome.noConfusion hstep
  rename_i hend
  have hst' : st' = ⟨rest ++ (bfsExpand parent curr d (impl.next_states curr)).2,
      (bfsExpand parent curr d (impl.next_states curr)).1⟩ := by
    injection hstep with h
    exact h.symm
  subst hst'
  obtain ⟨pc, hpcw, hpcch, hpch, hpcl, hpclen⟩ :=
    hInv.queueEntry curr d (List.mem_cons_self _ _)
  have hpcw : walkBack start parent (parent.length + 1) curr = some pc := hpcw
  have hpclen : pc.length = d + 1 ∨
      (curr = start ∧ ∀ t ∈ impl.next_states start,
        (lookupS parent t).isSome) := hpclen
  have hcurrdisc : (lookupS parent curr).isSome ∨ curr = start :=
    walkBack_first hpcw
  have hold : ∀ c : S, (lookupS parent c).isSome →
      lookupS (bfsExpand parent curr d (impl.next_states curr)).1 c =
        lookupS parent c :=
    fun c hc => bfsExpand_lookup_old hc
  have hpres : ∀ c : S, (lookupS parent c).isSome →
      (lookupS (bfsExpand parent curr d (impl.next_states curr)).1 c).isSome := by
    intro c hc
    rw [hold c hc]
    exact hc
  have hpresd : ∀ c : S, ((lookupS parent c).isSome ∨ c = start) →
      ((lookupS (bfsExpand parent curr d (impl.next_states curr)).1 c).isSome ∨
        c = start) := by
    intro c hc
    rcases hc with hc | hc
    · exact Or.inl (hpres c hc)
    · exact Or.inr hc
  obtain ⟨d0, q1, q2, heq, hq1, hq2⟩ := hInv.window
  have heq : (curr, d) :: rest = q1 ++ q2 := heq
  have hge : ∀ e ∈ (curr, d) :: rest, d ≤ e.2 ∧ e.2 ≤ d + 1 := by
    intro e he
    cases q1 with
    | nil =>
      simp only [List.nil_append] at heq
      rw [← heq] at hq2
      have hd := hq2 (curr, d) (List.mem_cons_self _ _)
      have he2 := hq2 e he
      simp only at hd he2
      omega
    | cons e1 q1' =>
      rw [List.cons_append, List.cons.injEq] at heq
      obtain ⟨he1, hrest⟩ := heq
      have hd0 : d = d0 := by
        have h0 := hq1 e1 (List.mem_cons_self _ _)
        rw [← he1] at h0
        simpa using h0
      rcases List.mem_cons.mp he with rfl | he'
      · simp only
        omega
      · rw [hrest] at he'
        rcases List.mem_append.mp he' with h' | h'
        · have := hq1 e (List.mem_cons_of_mem _ h')
          omega
        · have := hq2 e h'
          omega
  have hB : ∀ c k, ReachN impl start k c → k ≤ d →
      ((lookupS parent c).isSome ∨ c = start) := by
    intro c k hreach hk
    match k, hreach with
    | 0, hreach => exact Or.inr hreach
    | k0 + 1, ⟨u, hu, hedge⟩ =>
      have hud := hInv.disc u k0 hu (curr, d) rfl (by omega)
      have hud : (lookupS parent u).isSome ∨ u = start := hud
      by_cases huq : ∀ e ∈ (curr, d) :: rest, e.1 ≠ u
      · exact Or.inl ((hInv.proc u hud huq).1 c hedge)
      · push_neg at huq
        obtain ⟨e, he, heu⟩ := huq
        obtain ⟨u', du⟩ := e
        simp only at heu
        subst heu
        obtain ⟨pu, hpuw, -, -, -, hpulen⟩ := hInv.queueEntry u' du he
        have hpuw : walkBack start parent (parent.length + 1) u' = some pu := hpuw
        rcases hpulen with hpulen | ⟨hustart, hstar⟩
        · exfalso
          have hmin := hInv.minWalk u' pu _ hpuw k0 hu
          have hdge := (hge (u', du) he).1
          simp only at hdge hpulen
          omega
        · have hstar : ∀ t ∈ impl.next_states start,
              (lookupS parent t).isSome := hstar
          exact Or.inl (hstar c (hustart ▸ hedge))
  have hC : ∀ t k, lookupS parent t = none → ¬ t = start →
      ReachN impl start k t → d + 1 ≤ k := by
    intro t k hfresh hts hreach
    by_contra hlt
    push_neg at hlt
    rcases hB t k hreach (by omega) with hsome | hstart
    · rw [hfresh] at hsome
      simp at hsome
    · exact hts hstart
  have hendf : impl.is_end_state curr = false := Bool.eq_false_iff.mpr hend
  refine ⟨hInv.notEndStart, ?_, ?_, ?_, ?_, ?_, ?_, ?_⟩
  · -- parentClosed
    intro c w hcw
    rcases bfsExpand_pair_mem hcw with hcw' | rfl
    · exact hpresd w (hInv.parentClosed c w hcw')
    · exact hpresd w hcurrdisc
  · -- window
    cases q1 with
    | nil =>
      simp only [List.nil_append] at heq
      rw [← heq] at hq2
      refine ⟨d, rest, (bfsExpand parent curr d (impl.next_states curr)).2,
        rfl, ?_, ?_⟩
      · intro e he
        have hd := hq2 (curr, d) (List.mem_cons_self _ _)
        have he2 := hq2 e (List.mem_cons_of_mem _ he)
        simp only at hd he2
        omega
      · intro e he
        exact (bfsExpand_news e he).1
    | cons e1 q1' =>
      rw [List.cons_append, List.cons.injEq] at heq
      obtain ⟨he1, hrest⟩ := heq
      have hd0 : d = d0 := by
        have h0 := hq1 e1 (List.mem_cons_self _ _)
        rw [← he1] at h0
        simpa using h0
      refine ⟨d0, q1',
        q2 ++ (bfsExpand parent curr d (impl.next_states curr)).2, ?_, ?_, ?_⟩
      · rw [hrest, List.append_assoc]
      · intro e he
        exact hq1 e (List.mem_cons_of_mem _ he)
      · intro e he
        rcases List.mem_append.mp he with h' | h'
        · exact hq2 e h'
        · have := (bfsExpand_news e h').1
          omega
  · -- queueEntry
    intro n dn hn
    rcases List.mem_append.mp hn with hn | hn
    · obtain ⟨pn, hw, hch, hh, hl, hlen⟩ :=
        hInv.queueEntry n dn (List.mem_cons_of_mem _ hn)
      have hw : walkBack start parent (parent.length + 1) n = some pn := hw
      refine ⟨pn, ?_, hch, hh, hl, ?_⟩
      · have h1 : walkBack start
            (bfsExpand parent curr d (impl.next_states curr)).1
            (parent.length + 1) n = some pn := bfsExpand_walk hw
        refine walkBack_mono h1 ?_
        rw [bfsExpand_length]
        omega
      · rcases hlen with hlen | ⟨hns, hstar⟩
        · exact Or.inl hlen
        · have hstar : ∀ t ∈ impl.next_states start,
              (lookupS parent t).isSome := hstar
          exact Or.inr ⟨hns, fun t ht => hpres t (hstar t ht)⟩
    · obtain ⟨hdn, hlook, hfresh, hmem⟩ := bfsExpand_news (n, dn) hn
      simp only at hdn hlook hfresh hmem
      by_cases hns : n = start
      · have hwstart : walkBack start
            (bfsExpand parent curr d (impl.next_states curr)).1
            ((bfsExpand parent curr d (impl.next_states curr)).1.length + 1) n =
            some [n] := by
          rw [hns]
          exact walkBack_start
        refine ⟨[n], hwstart, List.chain'_singleton n, by simp [hns],
          rfl, Or.inr ⟨hns, ?_⟩⟩
        by_cases hcs : curr = start
        · intro t ht
          rw [← hcs] at ht
          exact bfsExpand_arcs_discovered t ht
        · have hfreshs : lookupS parent start = none := by
            rw [← hns]
            exact hfresh
          have hnoq : ∀ e ∈ (curr, d) :: rest, e.1 ≠ start := by
            intro e he hen
            have hq := hInv.startFresh hfreshs e he hen
            have hq : (curr, d) :: rest = [(start, 0)] := hq
            rw [List.cons.injEq] at hq
            exact hcs (congrArg Prod.fst hq.1)
          have hproc := hInv.proc start (Or.inr rfl) hnoq
          intro t ht
          exact hpres t (hproc.1 t ht)
      · have hpclen1 : pc.length = d + 1 := by
          rcases hpclen with h' | ⟨hcs2, hstar⟩
          · exact h'
          · exfalso
            have hsm := hstar n (hcs2 ▸ hmem)
            rw [hfresh] at hsm
            simp at hsm
        have hwc : walkBack start
            (bfsExpand parent curr d (impl.next_states curr)).1
            (bfsExpand parent curr d (impl.next_states curr)).1.length curr =
            some pc := by
          have h1 : walkBack start
              (bfsExpand parent curr d (impl.next_states curr)).1
              (parent.length + 1) curr = some pc := bfsExpand_walk hpcw
          refine walkBack_mono h1 ?_
          rw [bfsExpand_length]
          have hne2 : (bfsExpand parent curr d
              (impl.next_states curr)).2.length ≠ 0 := by
            intro h0
            rw [List.length_eq_zero] at h0
            rw [h0] at hn
            exact absurd hn (List.not_mem_nil _)
          omega
        have hwn := walkBack_step hns hlook hwc
        refine ⟨pc ++ [n], hwn, ?_, ?_, List.getLast?_concat _, Or.inl ?_⟩
        · refine (List.chain'_append).mpr ⟨hpcch, List.chain'_singleton n, ?_⟩
          intro x hx y hy
          rw [hpcl] at hx
          obtain rfl : curr = x := by injection hx
          obtain rfl : n = y := by injection hy
          exact hmem
        · match pc, hpch with
          | a :: pc', hpch => simpa using hpch
        · simp only [List.length_append, List.length_cons, List.length_nil]
          omega
  · -- minWalk
    intro c pw f h k hreach
    by_cases hdisc : (lookupS parent c).isSome ∨ c = start
    · exact hInv.minWalk c pw f
        (walkBack_restrict hold hInv.parentClosed h hdisc) k hreach
    · push_neg at hdisc
      obtain ⟨hnotsome, hcs⟩ := hdisc
      have hfresh : lookupS parent c = none :=
        Option.not_isSome_iff_eq_none.mp hnotsome
      obtain ⟨f', w', pw', hf, hl', hwalk', rfl⟩ := walkBack_destruct h hcs
      rcases bfsExpand_lookup_new hl' with h' | ⟨hwc', -, hcarc⟩
      · rw [hfresh] at h'
        exact absurd h' (by simp)
      · rw [hwc'] at hwalk'
        have hpw' : walkBack start parent f' curr = some pw' :=
          walkBack_restrict hold hInv.parentClosed hwalk' hcurrdisc
        have hppc : pw' = pc := walkBack_det hpw' hpcw
        have hpclen1 : pc.length = d + 1 := by
          rcases hpclen with h'' | ⟨hcs2, hstar⟩
          · exact h''
          · exfalso
            have hsm := hstar c (hcs2 ▸ hcarc)
            rw [hfresh] at hsm
            simp at hsm
        have hk := hC c k hfresh hcs hreach
        rw [hppc]
        simp only [List.length_append, List.length_cons, List.length_nil]
        omega
  · -- disc
    intro c k hreach e' he' hk
    have hmem' : e' ∈ rest ++ (bfsExpand parent curr d (impl.next_states curr)).2 :=
      List.mem_of_mem_head? he'
    have he'le : e'.2 ≤ d + 1 := by
      rcases List.mem_append.mp hmem' with h' | h'
      · exact (hge e' (List.mem_cons_of_mem _ h')).2
      · have := (bfsExpand_news e' h').1
        omega
    exact hpresd c (hB c k hreach (by omega))
  · -- proc
    intro c hc hq
    by_cases hcc : c = curr
    · subst hcc
      exact ⟨fun t ht => bfsExpand_arcs_discovered t ht, hendf⟩
    · have hc : (lookupS (bfsExpand parent curr d
          (impl.next_states curr)).1 c).isSome ∨ c = start := hc
      have hq : ∀ e ∈ rest ++ (bfsExpand parent curr d
          (impl.next_states curr)).2, e.1 ≠ c := hq
      have hOld : (lookupS parent c).isSome ∨ c = start := by
        rcases hc with hc | hc
        · obtain ⟨w, hw⟩ := Option.isSome_iff_exists.mp hc
          rcases bfsExpand_lookup_new hw with h' | ⟨-, hfresh, hcarc⟩
          · exact Or.inl (by simp [h'])
          · exfalso
            have hinq : (c, d + 1) ∈
                (bfsExpand parent curr d (impl.next_states curr)).2 :=
              bfsExpand_fresh_entry hcarc hfresh
            exact hq (c, d + 1) (List.mem_append_right _ hinq) rfl
        · exact Or.inr hc
      have hqold : ∀ e ∈ (curr, d) :: rest, e.1 ≠ c := by
        intro e he hec
        rcases List.mem_cons.mp he with rfl | he'
        · exact hcc hec.symm
        · exact hq e (List.mem_append_left _ he') hec
      have hpo := hInv.proc c hOld hqold
      exact ⟨fun t ht => hpres t (hpo.1 t ht), hpo.2⟩
  · -- startFresh
    intro hfreshp e he hes
    exfalso
    have hfreshp : lookupS (bfsExpand parent curr d
        (impl.next_states curr)).1 start = none := hfreshp
    have he : e ∈ rest ++ (bfsExpand parent curr d
        (impl.next_states curr)).2 := he
    have hfresh : lookupS parent start = none := by
      cases hl : lookupS parent start with
      | none => rfl
      | some w =>
        have hsm := hpres start (by simp [hl])
        rw [hfreshp] at hsm
        simp at hsm
    rcases List.mem_append.mp he with he | he
    · have hq := hInv.startFresh hfresh e (List.mem_cons_of_mem _ he) hes
      have hq : (curr, d) :: rest = [(start, 0)] := hq
      rw [List.cons.injEq] at hq
      rw [hq.2] at he
      exact absurd he (List.not_mem_nil _)
    · have hlk := (bfsExpand_news e he).2.1
      rw [hes, hfreshp] at hlk
      exact Option.noConfusion hlk

/-- The two-level window gives bounds on every queued depth relative to
the front entry. -/
theorem window_front_ge {curr : S} {d d0 : Nat} {rest q1 q2 : List (S × Nat)}
    (heq : (curr, d) :: rest = q1 ++ q2) (hq1 : ∀ e ∈ q1, e.2 = d0)
    (hq2 : ∀ e ∈ q2, e.2 = d0 + 1) :
    ∀ e ∈ (curr, d) :: rest, d ≤ e.2 ∧ e.2 ≤ d + 1 := by
  intro e he
  cases q1 with
  | nil =>
    simp only [List.nil_append] at heq
    rw [← heq] at hq2
    have hd := hq2 (curr, d) (List.mem_cons_self _ _)
    have he2 := hq2 e he
    simp only at hd he2
    omega
  | cons e1 q1' =>
    rw [List.cons_append, List.cons.injEq] at heq
    obtain ⟨he1, hrest⟩ := heq
    have hd0 : d = d0 := by
      have h0 := hq1 e1 (List.mem_cons_self _ _)
      rw [← he1] at h0
      simpa using h0
    rcases List.mem_cons.mp he with rfl | he'
    · simp only
      omega
    · rw [hrest] at he'
      rcases List.mem_append.mp he' with h' | h'
      · have := hq1 e (List.mem_cons_of_mem _ h')
        omega
      · have := hq2 e h'
        omega

/-- The invariant holds for the initial loop state of a BFS invocation
whose start state is not a goal. -/
theorem bfsInv_init {impl : StateImpl S} {start : S}
    (hne : impl.is_end_state start = false) :
    BfsInv impl start ⟨[(start, 0)], []⟩ := by
  refine ⟨hne, ?_, ⟨0, [(start, 0)], [], rfl, ?_, ?_⟩, ?_, ?_, ?_, ?_, ?_⟩
  · intro c w hcw
    exact absurd hcw (List.not_mem_nil _)
  · intro e he
    rw [List.mem_singleton.mp he]
  · intro e he
    exact absurd he (List.not_mem_nil _)
  · intro n dn hn
    have h := List.mem_singleton.mp hn
    have hns : n = start := congrArg Prod.fst h
    have hdn : dn = 0 := congrArg Prod.snd h
    subst hdn
    refine ⟨[n], ?_, List.chain'_singleton _, by simp [hns], rfl, Or.inl rfl⟩
    rw [hns]
    exact walkBack_start
  · intro c pw f h k hreach
    match f, h with
    | 0, h => exact Option.noConfusion h
    | f + 1, h =>
      by_cases hcs : c = start
      · subst hcs
        rw [walkBack_start] at h
        have hpw : [c] = pw := by injection h
        rw [← hpw]
        simp
      · simp only [walkBack, if_neg hcs, lookupS] at h
        exact Option.noConfusion h
  · intro c k hreach e he hk
    simp only [List.head?_cons, Option.some.injEq] at he
    rw [← he] at hk
    simp at hk
  · intro c hdisc hq
    rcases hdisc with hdisc | rfl
    · simp [lookupS] at hdisc
    · exact absurd rfl (hq (c, 0) (List.mem_singleton_self _))
  · intro _ e he hes
    rfl

/-- If the BFS loop, started in an invariant state, returns a path, that
path is a valid solution and its node count is minimal among all walks from
the start to any goal state. -/
theorem bfsLoop_found {impl : StateImpl S} {start : S} :
    ∀ {fuel : Nat} {st : BfsState S} {p : List S},
      BfsInv impl start st →
      bfsLoop impl start fuel st = some (.found p) →
      ValidSolution impl start p ∧
        ∀ k g, ReachN impl start k g → impl.is_end_state g = true →
          p.length ≤ k + 1 := by
  intro fuel
  induction fuel with
  | zero => intro st p _ h; exact Option.noConfusion h
  | succ f ih =>
    intro st p hInv h
    simp only [bfsLoop] at h
    cases hstep : bfsStep impl start st with
    | next st' =>
      simp only [hstep] at h
      exact ih (bfsInv_step hInv hstep) h
    | halt r =>
      simp only [hstep] at h
      subst h
      rcases st with ⟨queue, parent⟩
      cases queue with
      | nil => simp [bfsStep] at hstep
      | cons e0 rest =>
        obtain ⟨curr, d⟩ := e0
        simp only [bfsStep] at hstep
        split at hstep
        · rename_i hend
          split at hstep
          · exact absurd hstep (by simp)
          · rename_i pw hpw
            have hpp : pw = p := by
              injection hstep with h1
              injection h1 with h2
              injection h2
            have hpw2 : walkBack start parent (parent.length + 1) curr = some pw :=
              hpw
            obtain ⟨pc, hpcw, hpcch, hpch, hpcl, hpclen⟩ :=
              hInv.queueEntry curr d (List.mem_cons_self _ _)
            have hpcw : walkBack start parent (parent.length + 1) curr = some pc :=
              hpcw
            have hpclen : pc.length = d + 1 ∨
                (curr = start ∧ ∀ t ∈ impl.next_states start,
                  (lookupS parent t).isSome) := hpclen
            have hpcp : pc = p := by
              rw [walkBack_det hpcw hpw2, hpp]
            rw [← hpcp]
            refine ⟨⟨hpch, hpcch, curr, hpcl, hend⟩, ?_⟩
            intro k g hreach hgend
            rcases hpclen with hpclen | ⟨hcs, -⟩
            · -- recorded depth d; show d ≤ k
              obtain ⟨d0, q1, q2, heq, hq1, hq2⟩ := hInv.window
              have heq : (curr, d) :: rest = q1 ++ q2 := heq
              have hge := window_front_ge heq hq1 hq2
              by_contra hlt
              push_neg at hlt
              have hkd : k < d := by omega
              have hgdisc := hInv.disc g k hreach (curr, d) rfl hkd
              have hgdisc : (lookupS parent g).isSome ∨ g = start := hgdisc
              have hgs : ¬ g = start := by
                intro h0
                rw [h0, hInv.notEndStart] at hgend
                exact Bool.noConfusion hgend
              by_cases hgq : ∀ e ∈ (curr, d) :: rest, e.1 ≠ g
              · have hpo := hInv.proc g hgdisc hgq
                rw [hpo.2] at hgend
                exact Bool.noConfusion hgend
              · push_neg at hgq
                obtain ⟨e, he, heg⟩ := hgq
                obtain ⟨g', dg⟩ := e
                simp only at heg
                subst heg
                obtain ⟨pg, hpgw, -, -, -, hpglen⟩ := hInv.queueEntry g' dg he
                have hpgw : walkBack start parent (parent.length + 1) g' =
                    some pg := hpgw
                rcases hpglen with hpglen | ⟨hgs', -⟩
                · have hmin := hInv.minWalk g' pg _ hpgw k hreach
                  have hdge := (hge (g', dg) he).1
                  simp only at hdge
                  omega
                · exact hgs hgs'
            · -- re-enqueued start: p is the walk of start, i.e. [start]
              have hpstart : walkBack start parent (parent.length + 1) curr =
                  some [start] := by
                rw [hcs]
                exact walkBack_start
              have h1 : ([start] : List S) = pc := by
                rw [hpstart] at hpcw
                injection hpcw
              rw [← h1]
              simp
        · exact absurd hstep (by simp)

/-- Top-level specification of a successful BFS call: the returned path is
valid and has minimal node count among all walks reaching a goal. -/
theorem bfs_found_spec {impl : StateImpl S} {start : S} {fuel : Nat}
    {p : List S}
    (h : solve_end_state_BFS impl start fuel = some (.found p)) :
    ValidSolution impl start p ∧
      ∀ k g, ReachN impl start k g → impl.is_end_state g = true →
        p.length ≤ k + 1 := by
  by_cases hse : impl.is_end_state start = true
  · match fuel, h with
    | f + 1, h =>
      have hcomp : solve_end_state_BFS impl start (f + 1) =
          some (.found [start]) := by
        simp [solve_end_state_BFS, bfsLoop, bfsStep, hse, walkBack]
      rw [hcomp] at h
      have hps : ([start] : List S) = p := by
        injection h with h1
        injection h1
      rw [← hps]
      exact ⟨⟨rfl, List.chain'_singleton _, start, rfl, hse⟩,
        fun k g _ _ => by simp⟩
  · exact bfsLoop_found (bfsInv_init (Bool.eq_false_iff.mpr hse)) h

/-- C2: for every instance, a path returned by BFS is a shortest path by
transition count: its length does not exceed the length of any chain from
the start state to any goal state. -/
theorem claim2_bfs_minimality (impl : StateImpl S) (start : S) (fuel : Nat)
    (p q : List S)
    (hp : solve_end_state_BFS impl start fuel = some (.found p))
    (hq : IsChain impl q) (hq0 : q.head? = some start)
    (hqg : ∃ g, q.getLast? = some g ∧ impl.is_end_state g = true) :
    p.length ≤ q.length := by
  obtain ⟨-, hmin⟩ := bfs_found_spec hp
  obtain ⟨g, hg, hge⟩ := hqg
  have hreach := reachN_of_chain hq hq0 hg
  have hlen := hmin _ g hreach hge
  have hqne : q ≠ [] := by
    intro h0
    rw [h0] at hq0
    exact Option.noConfusion hq0
  have hq0' : q.length ≠ 0 := fun h0 => hqne (List.length_eq_zero.mp h0)
  omega

theorem claim2_witness :
    ([false, true] : List Bool).length ≤ ([false, true] : List Bool).length :=
  claim2_bfs_minimality LightBulb false 3 [false, true] [false, true]
    (by decide) (List.chain'_cons.mpr ⟨by decide, List.chain'_singleton _⟩)
    rfl ⟨true, rfl, rfl⟩

/-! ### The iterative-deepening loop -/

theorem idfsl_loop_found {impl : StateImpl S} {start : S} {innerFuel : Nat} :
    ∀ {f : Nat} {i : Int} {p : List S},
      idfsl_loop impl start innerFuel f i = some (.found p) →
      ∃ j : Int, i ≤ j ∧
        solve_end_state_DFSL impl start j innerFuel = some (.found p) ∧
        ∀ m : Int, i ≤ m → m < j →
          solve_end_state_DFSL impl start m innerFuel = some .noSolution := by
  intro f
  induction f with
  | zero => intro i p h; exact Option.noConfusion h
  | succ f ih =>
    intro i p h
    simp only [idfsl_loop] at h
    cases hd : solve_end_state_DFSL impl start i innerFuel with
    | none =>
      rw [hd] at h
      exact Option.noConfusion h
    | some r =>
      cases r with
      | found q =>
        simp only [hd] at h
        have hqp : q = p := by
          injection h with h1
          injection h1
        subst hqp
        exact ⟨i, le_rfl, hd, fun m hm1 hm2 => absurd hm1 (by omega)⟩
      | noSolution =>
        simp only [hd] at h
        obtain ⟨j, hj1, hj2, hj3⟩ := ih h
        refine ⟨j, by omega, hj2, ?_⟩
        intro m hm1 hm2
        rcases eq_or_lt_of_le hm1 with hme | hml
        · rw [← hme]
          exact hd
        · exact hj3 m (by omega) hm2
      | notImpl =>
        simp only [hd] at h
        injection h with h1
        exact SearchResult.noConfusion h1

theorem ridfsl_loop_eq {impl : StateImpl S} {start : S} {innerFuel : Nat} :
    ∀ (f : Nat) (i : Int),
      ridfsl_loop impl start innerFuel f i = idfsl_loop impl start innerFuel f i := by
  intro f
  induction f with
  | zero => intro i; rfl
  | succ f ih =>
    intro i
    simp only [ridfsl_loop, idfsl_loop]
    have he : solve_end_state_RDFSL impl start i innerFuel =
        solve_end_state_DFSL impl start i innerFuel := rfl
    rw [he]
    cases solve_end_state_DFSL impl start i innerFuel with
    | none => rfl
    | some r =>
      cases r with
      | found q => rfl
      | noSolution => exact ih (i + 1)
      | notImpl => rfl

/-- If a terminating DFSL call reports `NoSolution`, every chain from the
start to a goal needs strictly more transitions than the depth budget. -/
theorem dfsl_noSolution_no_chain {impl : StateImpl S} {start : S}
    {depth : Int} {fuel : Nat}
    (h : solve_end_state_DFSL impl start depth fuel = some .noSolution) :
    ∀ c : List S, IsChain impl c → c.head? = some start →
      (∃ g, c.getLast? = some g ∧ impl.is_end_state g = true) →
      depth < (c.length : Int) - 1 := by
  intro c hc hh hg
  obtain ⟨g, hcg, hge⟩ := hg
  by_contra hle
  push_neg at hle
  have hrec : ∃ s', recursive_solve_end_state_DFSL impl fuel depth
      [start] [start] = some (s', none) := by
    unfold solve_end_state_DFSL at h
    cases hx : recursive_solve_end_state_DFSL impl fuel depth [start] [start] with
    | none =>
      rw [hx] at h
      exact Option.noConfusion h
    | some pr =>
      obtain ⟨s', r⟩ := pr
      cases r with
      | none => exact ⟨s', rfl⟩
      | some pp =>
        cases pp with
        | nil =>
          exfalso
          obtain ⟨ext, hpe, -, -, -⟩ := dfsl_rec_found hx
          exact absurd hpe (by simp)
        | cons a pp' =>
          rw [hx] at h
          simp [dfs_wrapper] at h
  obtain ⟨s', hrec⟩ := hrec
  obtain ⟨c', hc', hnd', hh', hl', hlen'⟩ := chain_dedup c.length c le_rfl hc
  rw [hh] at hh'
  rw [hcg] at hl'
  match c', hh', hl', hc', hnd', hlen' with
  | b :: ctail, hh', hl', hc', hnd', hlen' =>
    have hb : b = start := by simpa using hh'
    rw [hb] at hc' hl'
    have hiff : ∀ x : S, x ∈ ([start] : List S) ↔ x ∈ ([start] : List S) :=
      fun x => Iff.rfl
    have hnds := List.nodup_cons.mp hnd'
    have havoid : ∀ x ∈ ctail, x ∉ ([start] : List S) := by
      intro x hx hmem
      rw [List.mem_singleton.mp hmem] at hx
      rw [hb] at hnds
      exact hnds.1 hx
    have hclen : (ctail.length : Int) ≤ depth := by
      simp only [List.length_cons] at hlen'
      have hcne : c ≠ [] := by
        intro h0
        rw [h0] at hh
        exact Option.noConfusion hh
      have hcl0 : c.length ≠ 0 := fun h0 => hcne (List.length_eq_zero.mp h0)
      omega
    have hfalse := dfsl_rec_complete hrec hiff rfl hc' hnds.2 havoid hclen hl'
    rw [hfalse] at hge
    exact Bool.noConfusion hge

/-- C4: on any instance where both terminate successfully, the path found
by IDFSL has exactly the same length as the path found by BFS (both are
minimal in transition count). -/
theorem claim4_idfsl_bfs_length (impl : StateImpl S) (start : S)
    (fuelB fuelI innerFuel : Nat) (p q : List S)
    (hp : solve_end_state_BFS impl start fuelB = some (.found p))
    (hq : solve_end_state_IDFSL impl start fuelI innerFuel = some (.found q)) :
    q.length = p.length := by
  obtain ⟨⟨hph, hpc, gp, hpl, hpe⟩, hpmin⟩ := bfs_found_spec hp
  obtain ⟨j, hj0, hjf, hjmin⟩ := idfsl_loop_found hq
  obtain ⟨s', hx, hqne⟩ := dfs_wrapper_found hjf
  have hqb := dfsl_rec_bound hx
  simp only [List.length_cons, List.length_nil] at hqb
  obtain ⟨hqh, -, hqh2, hqc, gq, hql, hqe⟩ := (dfsl_rec_found hx).from_start
  have hreachq := reachN_of_chain hqc hqh2 hql
  have h1 := hpmin _ gq hreachq hqe
  have hqlne : q.length ≠ 0 := fun h0 => hqne (List.length_eq_zero.mp h0)
  have hplne : p.length ≠ 0 := by
    intro h0
    rw [List.length_eq_zero] at h0
    rw [h0] at hph
    exact Option.noConfusion hph
  have h2 : (j : Int) + 1 ≤ (p.length : Int) ∨ j ≤ 0 := by
    by_cases hj : 0 < j
    · left
      have hns := hjmin (j - 1) (by omega) (by omega)
      have := dfsl_noSolution_no_chain hns p hpc hph ⟨gp, hpl, hpe⟩
      omega
    · right
      omega
  rcases h2 with h2 | h2 <;> omega

theorem claim4_witness :
    ([false, true] : List Bool).length = ([false, true] : List Bool).length :=
  claim4_idfsl_bfs_length LightBulb false 3 5 5 [false, true] [false, true]
    (by decide) (by decide)

/-- C1: for every strategy and every state implementation, a returned path
starts at the start state, ends in a goal state, and every consecutive pair
is a legal transition. -/
theorem claim1_path_validity (impl : StateImpl S) (start : S)
    (strategy : Strategy) (depth : Int) (fuel innerFuel : Nat) (p : List S)
    (h : solve_end_state impl start strategy depth fuel innerFuel =
      some (.found p)) :
    p.head? = some start ∧ IsChain impl p ∧
      ∃ g, p.getLast? = some g ∧ impl.is_end_state g = true := by
  cases strategy with
  | BFS =>
    obtain ⟨hv, -⟩ := bfs_found_spec h
    exact hv
  | DFS =>
    obtain ⟨s', hx, -⟩ := dfs_wrapper_found h
    exact ((dfs_rec_found hx).from_start).2.2
  | RDFS =>
    obtain ⟨s', hx, -⟩ := dfs_wrapper_found h
    exact ((dfs_rec_found hx).from_start).2.2
  | DFSL =>
    obtain ⟨s', hx, -⟩ := dfs_wrapper_found h
    exact ((dfsl_rec_found hx).from_start).2.2
  | RDFSL =>
    obtain ⟨s', hx, -⟩ := dfs_wrapper_found h
    exact ((dfsl_rec_found hx).from_start).2.2
  | IDFSL =>
    obtain ⟨j, -, hjf, -⟩ := idfsl_loop_found h
    obtain ⟨s', hx, -⟩ := dfs_wrapper_found hjf
    exact ((dfsl_rec_found hx).from_start).2.2
  | RIDFSL =>
    rw [show solve_end_state impl start .RIDFSL depth fuel innerFuel =
        ridfsl_loop impl start innerFuel fuel 0 from rfl,
      ridfsl_loop_eq] at h
    obtain ⟨j, -, hjf, -⟩ := idfsl_loop_found h
    obtain ⟨s', hx, -⟩ := dfs_wrapper_found hjf
    exact ((dfsl_rec_found hx).from_start).2.2
  | PDFS =>
    obtain ⟨s', hx, -⟩ := pdfs_wrapper_found h
    exact ((pdfs_rec_found hx).from_start).2.2

theorem claim1_witness :
    List.head? [false, true] = some false ∧ IsChain LightBulb [false, true] ∧
      ∃ g, List.getLast? [false, true] = some g ∧
        LightBulb.is_end_state g = true :=
  claim1_path_validity LightBulb false .DFS 0 3 3 [false, true] (by decide)

theorem claim9_witness :
    recursive_solve_end_state_PDFS tieImpl 4 [0] [0] =
      pdfs_arcs (recursive_solve_end_state_PDFS tieImpl 3) [1, 0, 2] [0] [0] ∧
    List.Perm [1, 0, 2] (tieImpl.next_states 0) ∧
    List.Pairwise (fun a b => ∀ ra rb, tieImpl.attractive_rate a = some ra →
      tieImpl.attractive_rate b = some rb → rb ≤ ra) ([1, 0, 2] : List (Fin 3)) ∧
    ∀ r : ℚ, ([1, 0, 2] : List (Fin 3)).filter
        (fun s => tieImpl.attractive_rate s == some r) =
      (tieImpl.next_states 0).filter
        (fun s => tieImpl.attractive_rate s == some r) :=
  claim9_pdfs_order tieImpl 3 [0] [0] 0 rfl rfl [1, 0, 2] (by decide)

/-! ### Termination measures on a finite closed state space -/

theorem freshCount_anti {univ s₁ s₂ : List S} (h : s₁ ⊆ s₂) :
    freshCount univ s₂ ≤ freshCount univ s₁ :=
  List.Sublist.length_le
    (List.monotone_filter_right univ (fun a ha => by
      simp only [decide_eq_true_eq] at ha ⊢
      exact fun hmem => ha (h hmem)))

theorem freshCount_cons_lt {univ solved : List S} {node : S}
    (hu : node ∈ univ) (hs : node ∉ solved) :
    freshCount univ (node :: solved) < freshCount univ solved := by
  induction univ with
  | nil => exact absurd hu (List.not_mem_nil node)
  | cons u univ ih =>
    have hanti : freshCount univ (node :: solved) ≤ freshCount univ solved :=
      freshCount_anti (List.subset_cons_self node solved)
    by_cases he : u = node
    · have k1 : freshCount (u :: univ) (node :: solved) =
          freshCount univ (node :: solved) := by
        simp [freshCount, List.filter_cons, he]
      have k2 : freshCount (u :: univ) solved = freshCount univ solved + 1 := by
        simp [freshCount, List.filter_cons, he, hs]
      rw [k1, k2]
      exact Nat.lt_succ_of_le hanti
    · have hm : node ∈ univ := by
        rcases List.mem_cons.mp hu with h' | h'
        · exact absurd h'.symm he
        · exact h'
      by_cases hus : u ∈ solved
      · have k1 : freshCount (u :: univ) (node :: solved) =
            freshCount univ (node :: solved) := by
          simp [freshCount, List.filter_cons, hus]
        have k2 : freshCount (u :: univ) solved = freshCount univ solved := by
          simp [freshCount, List.filter_cons, hus]
        rw [k1, k2]
        exact ih hm
      · have k1 : freshCount (u :: univ) (node :: solved) =
            freshCount univ (node :: solved) + 1 := by
          simp [freshCount, List.filter_cons, hus, he]
        have k2 : freshCount (u :: univ) solved = freshCount univ solved + 1 := by
          simp [freshCount, List.filter_cons, hus]
        rw [k1, k2]
        exact Nat.succ_lt_succ (ih hm)

theorem freshCount_le (univ solved : List S) :
    freshCount univ solved ≤ univ.length :=
  List.length_filter_le _ _

theorem lookupS_cons_none {parent : List (S × S)} {e : S × S} {c : S}
    (h : lookupS (e :: parent) c = none) : lookupS parent c = none := by
  obtain ⟨k, v⟩ := e
  simp only [lookupS] at h
  split at h
  · exact Option.noConfusion h
  · exact h

theorem undiscCount_cons_le (univ : List S) (e : S × S)
    (parent : List (S × S)) :
    undiscCount univ (e :: parent) ≤ undiscCount univ parent :=
  List.Sublist.length_le
    (List.monotone_filter_right univ (fun a ha => by
      rw [Option.isNone_iff_eq_none] at ha ⊢
      exact lookupS_cons_none ha))

theorem undiscCount_cons_lt {univ : List S} {parent : List (S × S)}
    {node w : S} (hu : node ∈ univ) (hn : lookupS parent node = none) :
    undiscCount univ ((node, w) :: parent) < undiscCount univ parent := by
  induction univ with
  | nil => exact absurd hu (List.not_mem_nil node)
  | cons u univ ih =>
    have hanti : undiscCount univ ((node, w) :: parent) ≤
        undiscCount univ parent :=
      undiscCount_cons_le univ (node, w) parent
    by_cases he : u = node
    · have k1 : (lookupS ((node, w) :: parent) u).isNone = false := by
        rw [he]
        simp [lookupS]
      have k2 : (lookupS parent u).isNone = true := by
        rw [he, hn]
        rfl
      have k1' : undiscCount (u :: univ) ((node, w) :: parent) =
          undiscCount univ ((node, w) :: parent) := by
        simp [undiscCount, List.filter_cons, k1]
      have k2' : undiscCount (u :: univ) parent =
          undiscCount univ parent + 1 := by
        simp [undiscCount, List.filter_cons, k2]
      rw [k1', k2']
      exact Nat.lt_succ_of_le hanti
    · have hm : node ∈ univ := by
        rcases List.mem_cons.mp hu with h' | h'
        · exact absurd h'.symm he
        · exact h'
      have hcons : lookupS ((node, w) :: parent) u = lookupS parent u := by
        simp only [lookupS]
        rw [if_neg he]
      by_cases hud : (lookupS parent u).isNone
      · have k1' : undiscCount (u :: univ) ((node, w) :: parent) =
            undiscCount univ ((node, w) :: parent) + 1 := by
          simp [undiscCount, List.filter_cons, hcons, hud]
        have k2' : undiscCount (u :: univ) parent =
            undiscCount univ parent + 1 := by
          simp [undiscCount, List.filter_cons, hud]
        rw [k1', k2']
        exact Nat.succ_lt_succ (ih hm)
      · have hud' : (lookupS parent u).isNone = false :=
          Bool.eq_false_iff.mpr hud
        have k1' : undiscCount (u :: univ) ((node, w) :: parent) =
            undiscCount univ ((node, w) :: parent) := by
          simp [undiscCount, List.filter_cons, hcons, hud']
        have k2' : undiscCount (u :: univ) parent =
            undiscCount univ parent := by
          simp [undiscCount, List.filter_cons, hud']
        rw [k1', k2']
        exact ih hm

theorem undiscCount_nil (univ : List S) :
    undiscCount univ ([] : List (S × S)) = univ.length := by
  simp [undiscCount, lookupS]

theorem dfs_arcs_total {univ : List S} {B : Nat}
    {rec : List S → List S → Option (List S × Option (List S))}
    (Hmono : ∀ ps ss s' r, rec ps ss = some (s', r) → ss ⊆ s')
    (Hrec : ∀ ps ss c, ps.getLast? = some c → c ∈ univ →
      freshCount univ ss < B → ∃ s', rec ps ss = some (s', none)) :
    ∀ (arcs path solved : List S), (∀ a ∈ arcs, a ∈ univ) →
      freshCount univ solved ≤ B →
      ∃ s', dfs_arcs rec arcs path solved = some (s', none) := by
  intro arcs
  induction arcs with
  | nil =>
    intro path solved _ _
    exact ⟨solved, rfl⟩
  | cons node rest ih =>
    intro path solved ha hb
    by_cases hmem : node ∈ solved
    · simp only [dfs_arcs, if_pos hmem]
      exact ih path solved (fun a h => ha a (List.mem_cons_of_mem _ h)) hb
    · have hnu : node ∈ univ := ha node (List.mem_cons_self _ _)
      have hlt : freshCount univ (node :: solved) < B :=
        lt_of_lt_of_le (freshCount_cons_lt hnu hmem) hb
      obtain ⟨s', hr⟩ := Hrec (path ++ [node]) (node :: solved) node
        (by simp) hnu hlt
      simp only [dfs_arcs, if_neg hmem, hr]
      have hb' : freshCount univ s' ≤ B :=
        le_trans (freshCount_anti (Hmono _ _ _ _ hr)) (le_of_lt hlt)
      exact ih path s' (fun a h => ha a (List.mem_cons_of_mem _ h)) hb'

theorem dfs_rec_total {impl : StateImpl S} {univ : List S}
    (hclosed : ∀ u ∈ univ, ∀ t ∈ impl.next_states u, t ∈ univ)
    (hnogoal : ∀ u ∈ univ, impl.is_end_state u = false) :
    ∀ (fuel : Nat) (path solved : List S) (curr : S),
      path.getLast? = some curr → curr ∈ univ →
      freshCount univ solved < fuel →
      ∃ s', recursive_solve_end_state_DFS impl fuel path solved =
        some (s', none) := by
  intro fuel
  induction fuel with
  | zero => intro path solved curr _ _ h; omega
  | succ f ih =>
    intro path solved curr hlast hcu hfc
    have hend : impl.is_end_state curr = false := hnogoal curr hcu
    simp only [recursive_solve_end_state_DFS, hlast, hend]
    exact dfs_arcs_total (fun ps ss s' r h => dfs_rec_mono h)
      (fun ps ss c hl hc hlt => ih ps ss c hl hc hlt)
      (impl.next_states curr) path solved
      (fun a h => hclosed curr hcu a h) (by omega)

theorem keyArcs_isSome {rate : S → Option ℚ} :
    ∀ {arcs : List S}, (∀ a ∈ arcs, (rate a).isSome) →
      ∃ kl, keyArcs rate arcs = some kl := by
  intro arcs
  induction arcs with
  | nil => intro _; exact ⟨[], rfl⟩
  | cons s rest ih =>
    intro h
    obtain ⟨r, hr⟩ :=
      Option.isSome_iff_exists.mp (h s (List.mem_cons_self _ _))
    obtain ⟨kl, hkl⟩ := ih (fun a ha => h a (List.mem_cons_of_mem _ ha))
    exact ⟨(s, r) :: kl, by simp [keyArcs, hr, hkl]⟩

theorem sortArcs_isSome {rate : S → Option ℚ} {arcs : List S}
    (h : ∀ a ∈ arcs, (rate a).isSome) :
    ∃ l, sortArcs rate arcs = some l := by
  obtain ⟨kl, hkl⟩ := keyArcs_isSome h
  exact ⟨(stableSortDesc kl).map Prod.fst, by simp [sortArcs, hkl]⟩

theorem pdfs_arcs_total {univ : List S} {B : Nat}
    {rec : List S → List S → Option (PdfsRes S)}
    (Hmono : ∀ ps ss s' r, rec ps ss = some (.res s' r) → ss ⊆ s')
    (Hrec : ∀ ps ss c, ps.getLast? = some c → c ∈ univ →
      freshCount univ ss < B → ∃ s', rec ps ss = some (.res s' none)) :
    ∀ (arcs path solved : List S), (∀ a ∈ arcs, a ∈ univ) →
      freshCount univ solved ≤ B →
      ∃ s', pdfs_arcs rec arcs path solved = some (.res s' none) := by
  intro arcs
  induction arcs with
  | nil =>
    intro path solved _ _
    exact ⟨solved, rfl⟩
  | cons node rest ih =>
    intro path solved ha hb
    by_cases hmem : node ∈ solved
    · simp only [pdfs_arcs, if_pos hmem]
      exact ih path solved (fun a h => ha a (List.mem_cons_of_mem _ h)) hb
    · have hnu : node ∈ univ := ha node (List.mem_cons_self _ _)
      have hlt : freshCount univ (node :: solved) < B :=
        lt_of_lt_of_le (freshCount_cons_lt hnu hmem) hb
      obtain ⟨s', hr⟩ := Hrec (path ++ [node]) (node :: solved) node
        (by simp) hnu hlt
      simp only [pdfs_arcs, if_neg hmem, hr]
      have hb' : freshCount univ s' ≤ B :=
        le_trans (freshCount_anti (Hmono _ _ _ _ hr)) (le_of_lt hlt)
      exact ih path s' (fun a h => ha a (List.mem_cons_of_mem _ h)) hb'

theorem pdfs_rec_total {impl : StateImpl S} {univ : List S}
    (hclosed : ∀ u ∈ univ, ∀ t ∈ impl.next_states u, t ∈ univ)
    (hnogoal : ∀ u ∈ univ, impl.is_end_state u = false)
    (hrate : ∀ u ∈ univ, (impl.attractive_rate u).isSome) :
    ∀ (fuel : Nat) (path solved : List S) (curr : S),
      path.getLast? = some curr → curr ∈ univ →
      freshCount univ solved < fuel →
      ∃ s', recursive_solve_end_state_PDFS impl fuel path solved =
        some (.res s' none) := by
  intro fuel
  induction fuel with
  | zero => intro path solved curr _ _ h; omega
  | succ f ih =>
    intro path solved curr hlast hcu hfc
    have hend : impl.is_end_state curr = false := hnogoal curr hcu
    obtain ⟨sorted, hs⟩ := sortArcs_isSome
      (fun a ha => hrate a (hclosed curr hcu a ha))
    simp only [recursive_solve_end_state_PDFS, hlast, hend, hs]
    exact pdfs_arcs_total (fun ps ss s' r h => pdfs_rec_mono h)
      (fun ps ss c hl hc hlt => ih ps ss c hl hc hlt)
      sorted path solved
      (fun a h => hclosed curr hcu a (sortArcs_mem hs a h)) (by omega)

theorem bfsExpand_measure {univ : List S} {curr : S} {d : Nat} :
    ∀ {arcs : List S} {parent : List (S × S)},
      (∀ a ∈ arcs, a ∈ univ) →
      (bfsExpand parent curr d arcs).2.length +
        undiscCount univ (bfsExpand parent curr d arcs).1 ≤
        undiscCount univ parent := by
  intro arcs
  induction arcs with
  | nil => intro parent _; simp [bfsExpand]
  | cons node rest ih =>
    intro parent ha
    by_cases hl : (lookupS parent node).isSome
    · simp only [bfsExpand, if_pos hl]
      exact ih (fun a h => ha a (List.mem_cons_of_mem _ h))
    · have hnone : lookupS parent node = none :=
        Option.not_isSome_iff_eq_none.mp hl
      simp only [bfsExpand, if_neg hl, List.length_cons]
      have h1 : (bfsExpand ((node, curr) :: parent) curr d rest).2.length +
          undiscCount univ
            (bfsExpand ((node, curr) :: parent) curr d rest).1 ≤
          undiscCount univ ((node, curr) :: parent) :=
        ih (fun a h => ha a (List.mem_cons_of_mem _ h))
      have h2 : undiscCount univ ((node, curr) :: parent) <
          undiscCount univ parent :=
        undiscCount_cons_lt (ha node (List.mem_cons_self _ _)) hnone
      omega

theorem bfsLoop_total {impl : StateImpl S} {start : S} {univ : List S}
    (hclosed : ∀ u ∈ univ, ∀ t ∈ impl.next_states u, t ∈ univ)
    (hnogoal : ∀ u ∈ univ, impl.is_end_state u = false) :
    ∀ (fuel : Nat) (st : BfsState S),
      (∀ e ∈ st.queue, e.1 ∈ univ) →
      st.queue.length + undiscCount univ st.parent < fuel →
      bfsLoop impl start fuel st = some .noSolution := by
  intro fuel
  induction fuel with
  | zero => intro st _ h; omega
  | succ f ih =>
    intro st hq hm
    obtain ⟨queue, parent⟩ := st
    cases queue with
    | nil => simp [bfsLoop, bfsStep]
    | cons e rest =>
      obtain ⟨curr, d⟩ := e
      have hcu : curr ∈ univ := hq (curr, d) (List.mem_cons_self _ _)
      have hend : impl.is_end_state curr = false := hnogoal curr hcu
      simp only [bfsLoop, bfsStep, hend]
      apply ih
      · intro e he
        rcases List.mem_append.mp he with h1 | h2
        · exact hq e (List.mem_cons_of_mem _ h1)
        · exact hclosed curr hcu e.1 (bfsExpand_news e h2).2.2.2
      · have hmeas :
            (bfsExpand parent curr d (impl.next_states curr)).2.length +
              undiscCount univ
                (bfsExpand parent curr d (impl.next_states curr)).1 ≤
              undiscCount univ parent :=
          bfsExpand_measure (fun a h => hclosed curr hcu a h)
        simp only [List.length_append]
        simp only [List.length_cons] at hm
        omega

/-- C8 fails as stated: `selfLoopNoRate` has a one-state reachable space
(`next_states false = [false]`) with no goal state, yet PDFS terminates with
`NotImplementedError` — not `NoSolution` — because the successor sort calls
the missing `attractive_rate`. -/
theorem claim8_counterexample :
    (∀ u ∈ [false], ∀ t ∈ selfLoopNoRate.next_states u, t ∈ [false]) ∧
    (∀ u ∈ [false], selfLoopNoRate.is_end_state u = false) ∧
    solve_end_state_PDFS selfLoopNoRate false 2 = some .notImpl := by
  refine ⟨by decide, by decide, by decide⟩

/-- C8 (amended): on a finite closed goal-free state space `univ`
containing the start, DFS, BFS and PDFS all terminate (fuel
`univ.length + 2` suffices) and fail with `NoSolution` — for PDFS provided
`attractive_rate` is implemented on every state of `univ` (otherwise it
raises `NotImplementedError`, as the counterexample shows). -/
theorem claim8_exhaustion (impl : StateImpl S) (start : S) (univ : List S)
    (hstart : start ∈ univ)
    (hclosed : ∀ u ∈ univ, ∀ t ∈ impl.next_states u, t ∈ univ)
    (hnogoal : ∀ u ∈ univ, impl.is_end_state u = false) :
    solve_end_state_DFS impl start (univ.length + 2) = some .noSolution ∧
    solve_end_state_BFS impl start (univ.length + 2) = some .noSolution ∧
    ((∀ u ∈ univ, (impl.attractive_rate u).isSome) →
      solve_end_state_PDFS impl start (univ.length + 2) =
        some .noSolution) := by
  refine ⟨?_, ?_, ?_⟩
  · obtain ⟨s', h⟩ := dfs_rec_total hclosed hnogoal (univ.length + 2)
      [start] [start] start rfl hstart
      (by have := freshCount_le univ [start]; omega)
    simp [solve_end_state_DFS, h, dfs_wrapper]
  · exact bfsLoop_total hclosed hnogoal (univ.length + 2) ⟨[(start, 0)], []⟩
      (by
        intro e he
        rw [List.mem_singleton.mp he]
        exact hstart)
      (by
        rw [undiscCount_nil]
        simp only [List.length_singleton]
        omega)
  · intro hrate
    obtain ⟨s', h⟩ := pdfs_rec_total hclosed hnogoal hrate (univ.length + 2)
      [start] [start] start rfl hstart
      (by have := freshCount_le univ [start]; omega)
    simp [solve_end_state_PDFS, h, pdfs_wrapper]

theorem claim8_witness :
    (solve_end_state_DFS selfLoop false 3 = some .noSolution ∧
      solve_end_state_BFS selfLoop false 3 = some .noSolution ∧
      ((∀ u ∈ [false], (selfLoop.attractive_rate u).isSome) →
        solve_end_state_PDFS selfLoop false 3 = some .noSolution)) ∧
    solve_end_state_PDFS selfLoop false 3 = some .noSolution := by
  have h := claim8_exhaustion selfLoop false [false] (by decide) (by decide)
    (by decide)
  exact ⟨h, h.2.2 (by decide)⟩

end SearchAI
